import Mathlib

/-!
# LiCi block cipher: a shallow embedding of `src/main.c`

Machine integers are natural numbers; every place where the C code truncates
to a fixed width is an explicit `% 2 ^ w` (`u8`, `u32`, `u128`).  Tables are
lists, `for` loops are folds over the list of the indices the loop visits.

A second, checked embedding (suffix `C`) makes every table access and every
shift fallible and gives loops fuel, so that memory safety and termination
can be stated.
-/

namespace LiCi

/-! ## Constants (lines 5-24) -/

/-- The table `SBOX[16]`. -/
def SBOX : List Nat :=
  [0x0C, 0x05, 0x06, 0x0B, 0x09, 0x00, 0x0A, 0x0D,
   0x03, 0x0E, 0x0F, 0x08, 0x04, 0x07, 0x01, 0x02]

/-- The table `INV_SBOX[16]`. -/
def INV_SBOX : List Nat :=
  [0x05, 0x0E, 0x0F, 0x08, 0x0C, 0x01, 0x02, 0x0D,
   0x0B, 0x04, 0x06, 0x03, 0x00, 0x07, 0x09, 0x0A]

/-- The table `ROUND_CONSTANTS[31]`. -/
def ROUND_CONSTANTS : List Nat :=
  [0x01, 0x02, 0x04, 0x08, 0x10, 0x20, 0x40, 0x80,
   0x13, 0x23, 0x43, 0x83, 0x15, 0x25, 0x45, 0x85,
   0x16, 0x26, 0x46, 0x86, 0x1A, 0x2A, 0x4A, 0x8A,
   0x1C, 0x2C, 0x4C, 0x8C, 0x1F, 0x2F, 0x4F]

/-! ## Fixed-width arithmetic -/

/-- Conversion to `uint8_t`. -/
def u8 (x : Nat) : Nat := x % 2 ^ 8

/-- Conversion to `uint32_t`. -/
def u32 (x : Nat) : Nat := x % 2 ^ 32

/-- Conversion to `__uint128_t`. -/
def u128 (x : Nat) : Nat := x % 2 ^ 128

/-- Bitwise complement `~x` of a `__uint128_t`. -/
def not128 (x : Nat) : Nat := 2 ^ 128 - 1 - x

/-! ## Rotations (lines 28-46) -/

/-- The C function `rol32`: `(x << n) | (x >> (32 - n))`. -/
def rol32 (x n : Nat) : Nat := u32 (x <<< n) ||| (x >>> (32 - n))

/-- The C function `ror32`: `(x >> n) | (x << (32 - n))`. -/
def ror32 (x n : Nat) : Nat := (x >>> n) ||| u32 (x <<< (32 - n))

/-- The C function `rol128`: `(x << n) | (x >> (128 - n))`. -/
def rol128 (x n : Nat) : Nat := u128 (x <<< n) ||| (x >>> (128 - n))

/-- The C function `ror128`: `(x >> n) | (x << (128 - n))`. -/
def ror128 (x n : Nat) : Nat := (x >>> n) ||| u128 (x <<< (128 - n))

/-! ## Substitution layer (lines 49-57 and 147-151) -/

/-- The C function `apply_sbox`: `out |= (uint32_t)SBOX[(in >> (i*4)) & 0xF] << (i*4)`
for `i = 0 .. 7`, starting from `out = 0`. -/
def apply_sbox (w : Nat) : Nat :=
  (List.range 8).foldl
    (fun out i => out ||| u32 (SBOX.getD ((w >>> (i * 4)) &&& 0xF) 0 <<< (i * 4))) 0

/-- The inner loop of `lici_decrypt` (lines 147-151):
`prev_L |= (uint32_t)INV_SBOX[(L_prime >> (j*4)) & 0xF] << (j*4)` for `j = 0 .. 7`. -/
def inv_sbox_loop (w : Nat) : Nat :=
  (List.range 8).foldl
    (fun out j => out ||| u32 (INV_SBOX.getD ((w >>> (j * 4)) &&& 0xF) 0 <<< (j * 4))) 0

/-! ## Key schedule (lines 62-91) -/

/-- The C function `key_update`; the updated `*key` is the result. -/
def key_update (key rc : Nat) : Nat :=
  let key := rol128 key 13
  let nibble := u8 ((key >>> 4) &&& 0xF)
  let key := key &&& not128 (u128 (0xF <<< 4))
  let key := key ||| u128 (SBOX.getD nibble 0 <<< 4)
  key ^^^ u128 ((rc &&& 0x1F) <<< 59)

/-- The C function `key_update_inverse`; the updated `*key` is the result. -/
def key_update_inverse (key rc : Nat) : Nat :=
  let key := key ^^^ u128 ((rc &&& 0x1F) <<< 59)
  let nibble := u8 ((key >>> 4) &&& 0xF)
  let key := key &&& not128 (u128 (0xF <<< 4))
  let key := key ||| u128 (INV_SBOX.getD nibble 0 <<< 4)
  ror128 key 13

/-! ## Encryption (lines 94-113) -/

/-- Lines 98-109: the part of the body of the loop of `lici_encrypt` that
updates `*L` and `*R`, given the current key register. -/
def enc_round (key L R : Nat) : Nat × Nat :=
  let kl := u32 ((key >>> 32) &&& 0xFFFFFFFF)
  let kr := u32 (key &&& 0xFFFFFFFF)
  let L_prime := apply_sbox L
  let next_L := rol32 (L_prime ^^^ R ^^^ kr) 3
  let next_R := ror32 (L_prime ^^^ next_L ^^^ kl) 7
  (next_L, next_R)

/-- One pass through the body of the loop of `lici_encrypt` at index `i`;
the state is `(*L, *R, key)`. -/
def enc_body (s : Nat × Nat × Nat) (i : Nat) : Nat × Nat × Nat :=
  let b := enc_round s.2.2 s.1 s.2.1
  (b.1, b.2, key_update s.2.2 (ROUND_CONSTANTS.getD i 0))

/-- The C function `lici_encrypt`; the result is the final `(*L, *R)`. -/
def lici_encrypt (L R key : Nat) : Nat × Nat :=
  let s := (List.range 31).foldl enc_body (L, R, key)
  (s.1, s.2.1)

/-! ## Decryption (lines 116-156) -/

/-- One pass through the body of the first loop of `lici_decrypt` at index
`i`; the state is `(round_keys, key)`. -/
def dec_key_body (s : List Nat × Nat) (i : Nat) : List Nat × Nat :=
  (s.1.set i s.2, key_update s.2 (ROUND_CONSTANTS.getD i 0))

/-- Lines 129-154: the body of the second loop of `lici_decrypt`, given the
value read from `round_keys[i]`. -/
def dec_round (rk L R : Nat) : Nat × Nat :=
  let kl := u32 ((rk >>> 32) &&& 0xFFFFFFFF)
  let kr := u32 (rk &&& 0xFFFFFFFF)
  let Lprime_xor_nextL := rol32 R 7 ^^^ kl
  let L_prime := Lprime_xor_nextL ^^^ L
  let prev_R := ror32 L 3 ^^^ L_prime ^^^ kr
  let prev_L := inv_sbox_loop L_prime
  (prev_L, prev_R)

/-- One pass through the body of the second loop of `lici_decrypt` at index `i`. -/
def dec_body (round_keys : List Nat) (s : Nat × Nat) (i : Nat) : Nat × Nat :=
  dec_round (round_keys.getD i 0) s.1 s.2

/-- The array `round_keys` after the first loop of `lici_decrypt`. -/
def dec_round_keys (key : Nat) : List Nat :=
  ((List.range 31).foldl dec_key_body (List.replicate 31 0, key)).1

/-- The C function `lici_decrypt`; the result is the final `(*L, *R)`.  The
second loop visits `i = 30, 29, .., 0`. -/
def lici_decrypt (L R key : Nat) : Nat × Nat :=
  (List.range 31).reverse.foldl (dec_body (dec_round_keys key)) (L, R)

/-! ## Checked embedding

The same program with every table or array access and every shift fallible:
an access outside the array and a shift by a negative amount or by the width
of the operand or more are `Fault.undefined`.  Loops take fuel, one unit for
each pass through the body, and `Fault.outOfFuel` marks a loop that would go
on beyond it.  Loop counters and shift amounts are C `int`s. -/

/-- The ways a run of the checked embedding can fail. -/
inductive Fault where
  | undefined
  | outOfFuel
  deriving DecidableEq

/-- The read `t[i]`. -/
def readC (t : List Nat) (i : Int) : Except Fault Nat :=
  if 0 ≤ i then
    match t[i.toNat]? with
    | some v => .ok v
    | none => .error .undefined
  else .error .undefined

/-- The write `t[i] = v`. -/
def writeC (t : List Nat) (i : Int) (v : Nat) : Except Fault (List Nat) :=
  if 0 ≤ i ∧ i.toNat < t.length then .ok (t.set i.toNat v) else .error .undefined

/-- The shift `x << n` of an unsigned operand of width `w`. -/
def shlC (w x : Nat) (n : Int) : Except Fault Nat :=
  if 0 ≤ n ∧ n < w then .ok (x <<< n.toNat % 2 ^ w) else .error .undefined

/-- The shift `x >> n` of an unsigned operand of width `w`. -/
def shrC (w x : Nat) (n : Int) : Except Fault Nat :=
  if 0 ≤ n ∧ n < w then .ok (x >>> n.toNat) else .error .undefined

/-- The loop `for (int i = i0; i < hi; i++) body`. -/
def forUpC {σ : Type} (hi : Int) (body : Int → σ → Except Fault σ) :
    Nat → Int → σ → Except Fault σ
  | 0, i, s => if i < hi then .error .outOfFuel else .ok s
  | fuel + 1, i, s =>
    if i < hi then
      match body i s with
      | .ok s' => forUpC hi body fuel (i + 1) s'
      | .error e => .error e
    else .ok s

/-- The loop `for (int i = i0; i >= 0; i--) body`. -/
def forDownC {σ : Type} (body : Int → σ → Except Fault σ) :
    Nat → Int → σ → Except Fault σ
  | 0, i, s => if 0 ≤ i then .error .outOfFuel else .ok s
  | fuel + 1, i, s =>
    if 0 ≤ i then
      match body i s with
      | .ok s' => forDownC body fuel (i - 1) s'
      | .error e => .error e
    else .ok s

/-- Checked `rol32`. -/
def rol32C (x : Nat) (n : Int) : Except Fault Nat := do
  let a ← shlC 32 x n
  let b ← shrC 32 x (32 - n)
  pure (a ||| b)

/-- Checked `ror32`. -/
def ror32C (x : Nat) (n : Int) : Except Fault Nat := do
  let a ← shrC 32 x n
  let b ← shlC 32 x (32 - n)
  pure (a ||| b)

/-- Checked `rol128`. -/
def rol128C (x : Nat) (n : Int) : Except Fault Nat := do
  let a ← shlC 128 x n
  let b ← shrC 128 x (128 - n)
  pure (a ||| b)

/-- The body of the loop of checked `apply_sbox`. -/
def apply_sbox_bodyC (w : Nat) (i : Int) (out : Nat) : Except Fault Nat := do
  let a ← shrC 32 w (i * 4)
  let v ← readC SBOX ((a &&& 0xF : Nat) : Int)
  let b ← shlC 32 v (i * 4)
  pure (out ||| b)

/-- Checked `apply_sbox`. -/
def apply_sboxC (w : Nat) : Except Fault Nat :=
  forUpC 8 (apply_sbox_bodyC w) 8 0 0

/-- The body of the inner loop of checked `lici_decrypt`. -/
def inv_sbox_bodyC (w : Nat) (j : Int) (out : Nat) : Except Fault Nat := do
  let a ← shrC 32 w (j * 4)
  let v ← readC INV_SBOX ((a &&& 0xF : Nat) : Int)
  let b ← shlC 32 v (j * 4)
  pure (out ||| b)

/-- The inner loop of checked `lici_decrypt`. -/
def inv_sbox_loopC (w : Nat) : Except Fault Nat :=
  forUpC 8 (inv_sbox_bodyC w) 8 0 0

/-- Checked `key_update`. -/
def key_updateC (key rc : Nat) : Except Fault Nat := do
  let key ← rol128C key 13
  let a ← shrC 128 key 4
  let nibble := u8 (a &&& 0xF)
  let m ← shlC 128 0xF 4
  let key := key &&& not128 m
  let v ← readC SBOX (nibble : Int)
  let b ← shlC 128 v 4
  let key := key ||| b
  let c ← shlC 128 (rc &&& 0x1F) 59
  pure (key ^^^ c)

/-- The body of the loop of checked `lici_encrypt`. -/
def enc_bodyC (i : Int) (s : Nat × Nat × Nat) : Except Fault (Nat × Nat × Nat) := do
  let a ← shrC 128 s.2.2 32
  let kl := u32 (a &&& 0xFFFFFFFF)
  let kr := u32 (s.2.2 &&& 0xFFFFFFFF)
  let L_prime ← apply_sboxC s.1
  let next_L ← rol32C (L_prime ^^^ s.2.1 ^^^ kr) 3
  let next_R ← ror32C (L_prime ^^^ next_L ^^^ kl) 7
  let rc ← readC ROUND_CONSTANTS i
  let key ← key_updateC s.2.2 rc
  pure (next_L, next_R, key)

/-- Checked `lici_encrypt`, with `fuel` passes allowed to its loop. -/
def lici_encryptC (fuel L R key : Nat) : Except Fault (Nat × Nat) := do
  let s ← forUpC 31 enc_bodyC fuel 0 (L, R, key)
  pure (s.1, s.2.1)

/-- The body of the first loop of checked `lici_decrypt`. -/
def dec_key_bodyC (i : Int) (s : List Nat × Nat) : Except Fault (List Nat × Nat) := do
  let round_keys ← writeC s.1 i s.2
  let rc ← readC ROUND_CONSTANTS i
  let key ← key_updateC s.2 rc
  pure (round_keys, key)

/-- The body of the second loop of checked `lici_decrypt`. -/
def dec_bodyC (round_keys : List Nat) (i : Int) (s : Nat × Nat) : Except Fault (Nat × Nat) := do
  let rk ← readC round_keys i
  let a ← shrC 128 rk 32
  let kl := u32 (a &&& 0xFFFFFFFF)
  let rk ← readC round_keys i
  let kr := u32 (rk &&& 0xFFFFFFFF)
  let t ← rol32C s.2 7
  let Lprime_xor_nextL := t ^^^ kl
  let L_prime := Lprime_xor_nextL ^^^ s.1
  let t ← ror32C s.1 3
  let prev_R := t ^^^ L_prime ^^^ kr
  let prev_L ← inv_sbox_loopC L_prime
  pure (prev_L, prev_R)

/-- Checked `lici_decrypt`, with `fuel` passes allowed to each of its two
outer loops. -/
def lici_decryptC (fuel L R key : Nat) : Except Fault (Nat × Nat) := do
  let s ← forUpC 31 dec_key_bodyC fuel 0 (List.replicate 31 0, key)
  forDownC (dec_bodyC s.1) fuel 30 (L, R)

/-! ## Reference definitions, following the specification -/

/-- Specification, section 4.4: the key register at the start of round `i`,
`K_0 = K` and `K_{i+1} = advance_key(K_i, round_constants[i])`. -/
def spec_key (K : Nat) : Nat → Nat
  | 0 => K
  | i + 1 => key_update (spec_key K i) (ROUND_CONSTANTS.getD i 0)

/-- Specification, section 2: circular left rotation of a 32-bit word. -/
def spec_rotl32 (x n : Nat) : Nat := x * 2 ^ n % 2 ^ 32 + x / 2 ^ (32 - n)

/-- Specification, section 2: circular right rotation of a 32-bit word. -/
def spec_rotr32 (x n : Nat) : Nat := x / 2 ^ n + x % 2 ^ n * 2 ^ (32 - n)

/-- Specification, section 2: circular left rotation of a 128-bit key. -/
def spec_rotl128 (x n : Nat) : Nat := x * 2 ^ n % 2 ^ 128 + x / 2 ^ (128 - n)

/-- Specification, section 4.2 step 2: the 4-bit field at bits [7:4] is
replaced by its image under the forward table, all other bits untouched. -/
def spec_sub_field (x : Nat) : Nat :=
  x - 2 ^ 4 * (x / 2 ^ 4 % 2 ^ 4) + 2 ^ 4 * SBOX.getD (x / 2 ^ 4 % 2 ^ 4) 0

/-- Specification, section 4.2, `advance_key`: rotate left by 13, substitute
the field at bits [7:4], XOR the low 5 bits of the constant into bits [63:59]. -/
def spec_advance_key (k rc : Nat) : Nat :=
  spec_sub_field (spec_rotl128 k 13) ^^^ (rc % 32 * 2 ^ 59)

/-- Specification, section 4.3: the round function for sub-keys `(KL, KR)`. -/
def spec_round (KL KR : Nat) (s : Nat × Nat) : Nat × Nat :=
  let L' := apply_sbox s.1
  let next_L := spec_rotl32 (L' ^^^ s.2 ^^^ KR) 3
  let next_R := spec_rotr32 (L' ^^^ next_L ^^^ KL) 7
  (next_L, next_R)

/-- Specification, section 4.4: the block after `i` rounds, where round `i`
uses `KL_i = bits [63:32]` and `KR_i = bits [31:0]` of the key register
before it is advanced. -/
def spec_state (K L R : Nat) : Nat → Nat × Nat
  | 0 => (L, R)
  | i + 1 =>
    spec_round (spec_key K i / 2 ^ 32 % 2 ^ 32) (spec_key K i % 2 ^ 32) (spec_state K L R i)

/-- The block with bit `b` (of 64, the low 32 being `R`) flipped. -/
def flip_bit (b L R : Nat) : Nat × Nat :=
  if b < 32 then (L, R ^^^ 2 ^ b) else (L ^^^ 2 ^ (b - 32), R)

/-! # Theorems -/

/-! ## Rotations in arithmetic form -/

theorem or_eq_add_of_lt {a b k : Nat} (hb : b < 2 ^ k) : (2 ^ k * a) ||| b = 2 ^ k * a + b :=
  (Nat.mul_add_lt_is_or hb a).symm

theorem or_eq_add_of_lt' {a b k : Nat} (hb : b < 2 ^ k) : b ||| (2 ^ k * a) = b + 2 ^ k * a := by
  rw [Nat.lor_comm, or_eq_add_of_lt hb, Nat.add_comm]

/-- Left rotation over `w` bits, as the C expression computes it, in arithmetic form. -/
theorem rotl_arith {w n x : Nat} (hn : n ≤ w) (hx : x < 2 ^ w) :
    ((x <<< n) % 2 ^ w) ||| (x >>> (w - n)) = 2 ^ n * (x % 2 ^ (w - n)) + x / 2 ^ (w - n) := by
  have hw : 2 ^ w = 2 ^ n * 2 ^ (w - n) := by rw [← Nat.pow_add]; congr 1; omega
  have h1 : (x <<< n) % 2 ^ w = 2 ^ n * (x % 2 ^ (w - n)) := by
    rw [Nat.shiftLeft_eq, hw, Nat.mul_comm x, Nat.mul_mod_mul_left]
  have h2 : x / 2 ^ (w - n) < 2 ^ n := by
    rw [Nat.div_lt_iff_lt_mul (Nat.two_pow_pos _), ← Nat.pow_add]
    have : n + (w - n) = w := by omega
    rw [this]; exact hx
  rw [h1, Nat.shiftRight_eq_div_pow, or_eq_add_of_lt h2]

theorem rotr_arith {w n x : Nat} (hn : n ≤ w) (hx : x < 2 ^ w) :
    (x >>> n) ||| ((x <<< (w - n)) % 2 ^ w)  = 2 ^ (w - n) * (x % 2 ^ n) + x / 2 ^ n := by
  have h := rotl_arith (Nat.sub_le w n) hx
  have e : w - (w - n) = n := by omega
  rw [e] at h
  rw [Nat.lor_comm, h]

theorem rotr_rotl_arith {w n x : Nat} (hn : n ≤ w) (hx : x < 2 ^ w) :
    2 ^ (w - n) * ((2 ^ n * (x % 2 ^ (w - n)) + x / 2 ^ (w - n)) % 2 ^ n)
      + (2 ^ n * (x % 2 ^ (w - n)) + x / 2 ^ (w - n)) / 2 ^ n = x := by
  have h2 : x / 2 ^ (w - n) < 2 ^ n := by
    rw [Nat.div_lt_iff_lt_mul (Nat.two_pow_pos _), ← Nat.pow_add]
    have : n + (w - n) = w := by omega
    rw [this]; exact hx
  rw [Nat.mul_add_mod, Nat.mod_eq_of_lt h2, Nat.mul_add_div (Nat.two_pow_pos _),
    Nat.div_eq_of_lt h2, Nat.add_zero]
  exact Nat.div_add_mod x (2 ^ (w - n))

theorem rot_lt {w n x : Nat} (hn : n ≤ w) (hx : x < 2 ^ w) :
    2 ^ n * (x % 2 ^ (w - n)) + x / 2 ^ (w - n) < 2 ^ w := by
  have hw : 2 ^ w = 2 ^ n * 2 ^ (w - n) := by rw [← Nat.pow_add]; congr 1; omega
  have h2 : x / 2 ^ (w - n) < 2 ^ n := by
    rw [Nat.div_lt_iff_lt_mul (Nat.two_pow_pos _), ← Nat.pow_add]
    have : n + (w - n) = w := by omega
    rw [this]; exact hx
  have h3 : x % 2 ^ (w - n) < 2 ^ (w - n) := Nat.mod_lt _ (Nat.two_pow_pos _)
  rw [hw]
  calc 2 ^ n * (x % 2 ^ (w - n)) + x / 2 ^ (w - n)
      < 2 ^ n * (x % 2 ^ (w - n)) + 2 ^ n := by omega
    _ = 2 ^ n * (x % 2 ^ (w - n) + 1) := by ring
    _ ≤ 2 ^ n * 2 ^ (w - n) := Nat.mul_le_mul_left _ h3

theorem rol32_lt {x n : Nat} (hn : n ≤ 32) (hx : x < 2 ^ 32) : rol32 x n < 2 ^ 32 := by
  unfold rol32 u32; rw [rotl_arith hn hx]; exact rot_lt hn hx

theorem ror32_lt {x n : Nat} (hn : n ≤ 32) (hx : x < 2 ^ 32) : ror32 x n < 2 ^ 32 := by
  unfold ror32 u32; rw [rotr_arith hn hx]
  have := rot_lt (Nat.sub_le 32 n) hx
  have e : 32 - (32 - n) = n := by omega
  rwa [e] at this

theorem ror32_rol32 {x n : Nat} (hn : n ≤ 32) (hx : x < 2 ^ 32) : ror32 (rol32 x n) n = x := by
  have hl := rol32_lt hn hx
  unfold ror32 u32
  rw [rotr_arith hn hl]
  unfold rol32 u32
  rw [rotl_arith hn hx]
  exact rotr_rotl_arith hn hx

theorem rol32_ror32 {x n : Nat} (hn : n ≤ 32) (hx : x < 2 ^ 32) : rol32 (ror32 x n) n = x := by
  have hl := ror32_lt hn hx
  unfold rol32 u32
  rw [rotl_arith hn hl]
  unfold ror32 u32
  rw [rotr_arith hn hx]
  have h := rotr_rotl_arith (Nat.sub_le 32 n) hx
  have e : 32 - (32 - n) = n := by omega
  rw [e] at h
  exact h

theorem rol128_lt {x n : Nat} (hn : n ≤ 128) (hx : x < 2 ^ 128) : rol128 x n < 2 ^ 128 := by
  unfold rol128 u128; rw [rotl_arith hn hx]; exact rot_lt hn hx

theorem ror128_lt {x n : Nat} (hn : n ≤ 128) (hx : x < 2 ^ 128) : ror128 x n < 2 ^ 128 := by
  unfold ror128 u128; rw [rotr_arith hn hx]
  have := rot_lt (Nat.sub_le 128 n) hx
  have e : 128 - (128 - n) = n := by omega
  rwa [e] at this

theorem ror128_rol128 {x n : Nat} (hn : n ≤ 128) (hx : x < 2 ^ 128) :
    ror128 (rol128 x n) n = x := by
  have hl := rol128_lt hn hx
  unfold ror128 u128
  rw [rotr_arith hn hl]
  unfold rol128 u128
  rw [rotl_arith hn hx]
  exact rotr_rotl_arith hn hx

theorem rol128_ror128 {x n : Nat} (hn : n ≤ 128) (hx : x < 2 ^ 128) :
    rol128 (ror128 x n) n = x := by
  have hl := ror128_lt hn hx
  unfold rol128 u128
  rw [rotl_arith hn hl]
  unfold ror128 u128
  rw [rotr_arith hn hx]
  have h := rotr_rotl_arith (Nat.sub_le 128 n) hx
  have e : 128 - (128 - n) = n := by omega
  rw [e] at h
  exact h

/-! ## The substitution layer in arithmetic form -/

theorem and_15 (x : Nat) : x &&& 0xF = x % 16 := Nat.and_pow_two_sub_one_eq_mod x 4

theorem and_ffffffff (x : Nat) : x &&& 0xFFFFFFFF = x % 2 ^ 32 :=
  Nat.and_pow_two_sub_one_eq_mod x 32

theorem SBOX_getD_lt (i : Nat) : SBOX.getD i 0 < 16 := by
  by_cases h : i < 16
  · interval_cases i <;> decide
  · rw [List.getD_eq_default _ _ (by simpa [SBOX] using h)]; decide

theorem INV_SBOX_getD_lt (i : Nat) : INV_SBOX.getD i 0 < 16 := by
  by_cases h : i < 16
  · interval_cases i <;> decide
  · rw [List.getD_eq_default _ _ (by simpa [INV_SBOX] using h)]; decide

theorem INV_SBOX_SBOX (x : Nat) (h : x < 16) : INV_SBOX.getD (SBOX.getD x 0) 0 = x := by
  interval_cases x <;> decide

theorem SBOX_INV_SBOX (x : Nat) (h : x < 16) : SBOX.getD (INV_SBOX.getD x 0) 0 = x := by
  interval_cases x <;> decide

theorem pack_or {s0 s1 s2 s3 s4 s5 s6 s7 : Nat} (h0 : s0 < 16) (h1 : s1 < 16) (h2 : s2 < 16)
    (h3 : s3 < 16) (h4 : s4 < 16) (h5 : s5 < 16) (h6 : s6 < 16) (h7 : s7 < 16) :
    0 ||| u32 (s0 <<< 0) ||| u32 (s1 <<< 4) ||| u32 (s2 <<< 8) ||| u32 (s3 <<< 12)
      ||| u32 (s4 <<< 16) ||| u32 (s5 <<< 20) ||| u32 (s6 <<< 24) ||| u32 (s7 <<< 28)
    = s0 + 16 * s1 + 256 * s2 + 4096 * s3 + 65536 * s4 + 1048576 * s5 + 16777216 * s6
      + 268435456 * s7 := by
  have a0 : u32 (s0 <<< 0) = s0 := by unfold u32; rw [Nat.shiftLeft_eq]; omega
  have a1 : u32 (s1 <<< 4) = 16 * s1 := by unfold u32; rw [Nat.shiftLeft_eq]; omega
  have a2 : u32 (s2 <<< 8) = 256 * s2 := by unfold u32; rw [Nat.shiftLeft_eq]; omega
  have a3 : u32 (s3 <<< 12) = 4096 * s3 := by unfold u32; rw [Nat.shiftLeft_eq]; omega
  have a4 : u32 (s4 <<< 16) = 65536 * s4 := by unfold u32; rw [Nat.shiftLeft_eq]; omega
  have a5 : u32 (s5 <<< 20) = 1048576 * s5 := by unfold u32; rw [Nat.shiftLeft_eq]; omega
  have a6 : u32 (s6 <<< 24) = 16777216 * s6 := by unfold u32; rw [Nat.shiftLeft_eq]; omega
  have a7 : u32 (s7 <<< 28) = 268435456 * s7 := by unfold u32; rw [Nat.shiftLeft_eq]; omega
  rw [a0, a1, a2, a3, a4, a5, a6, a7, Nat.zero_or]
  have e1 : s0 ||| 16 * s1 = s0 + 16 * s1 := @or_eq_add_of_lt' s1 s0 4 (by omega)
  rw [e1]
  have e2 : (s0 + 16 * s1) ||| 256 * s2 = s0 + 16 * s1 + 256 * s2 :=
    @or_eq_add_of_lt' s2 _ 8 (by omega)
  rw [e2]
  have e3 : (s0 + 16 * s1 + 256 * s2) ||| 4096 * s3 = s0 + 16 * s1 + 256 * s2 + 4096 * s3 :=
    @or_eq_add_of_lt' s3 _ 12 (by omega)
  rw [e3]
  have e4 : (s0 + 16 * s1 + 256 * s2 + 4096 * s3) ||| 65536 * s4
      = s0 + 16 * s1 + 256 * s2 + 4096 * s3 + 65536 * s4 :=
    @or_eq_add_of_lt' s4 _ 16 (by omega)
  rw [e4]
  have e5 : (s0 + 16 * s1 + 256 * s2 + 4096 * s3 + 65536 * s4) ||| 1048576 * s5
      = s0 + 16 * s1 + 256 * s2 + 4096 * s3 + 65536 * s4 + 1048576 * s5 :=
    @or_eq_add_of_lt' s5 _ 20 (by omega)
  rw [e5]
  have e6 : (s0 + 16 * s1 + 256 * s2 + 4096 * s3 + 65536 * s4 + 1048576 * s5) ||| 16777216 * s6
      = s0 + 16 * s1 + 256 * s2 + 4096 * s3 + 65536 * s4 + 1048576 * s5 + 16777216 * s6 :=
    @or_eq_add_of_lt' s6 _ 24 (by omega)
  rw [e6]
  exact @or_eq_add_of_lt' s7 _ 28 (by omega)

/-- The `i`-th nibble of `w`. -/
theorem nib_shift (w i : Nat) : (w >>> (i * 4)) &&& 0xF = w / 16 ^ i % 16 := by
  rw [and_15, Nat.shiftRight_eq_div_pow, Nat.mul_comm, Nat.pow_mul]

/-- The eight-step substitution loop, for any table of nibbles, packs the
substituted nibbles in base 16. -/
theorem subst_loop_eq (T : List Nat) (hT : ∀ i, T.getD i 0 < 16) (w : Nat) :
    (List.range 8).foldl
      (fun out i => out ||| u32 (T.getD ((w >>> (i * 4)) &&& 0xF) 0 <<< (i * 4))) 0
    = T.getD (w % 16) 0 + 16 * T.getD (w / 16 % 16) 0 + 256 * T.getD (w / 256 % 16) 0
      + 4096 * T.getD (w / 4096 % 16) 0 + 65536 * T.getD (w / 65536 % 16) 0
      + 1048576 * T.getD (w / 1048576 % 16) 0 + 16777216 * T.getD (w / 16777216 % 16) 0
      + 268435456 * T.getD (w / 268435456 % 16) 0 := by
  have e : List.range 8 = [0, 1, 2, 3, 4, 5, 6, 7] := by decide
  rw [e]
  simp only [List.foldl_cons, List.foldl_nil, nib_shift]
  have h := pack_or (hT (w / 16 ^ 0 % 16)) (hT (w / 16 ^ 1 % 16)) (hT (w / 16 ^ 2 % 16))
    (hT (w / 16 ^ 3 % 16)) (hT (w / 16 ^ 4 % 16)) (hT (w / 16 ^ 5 % 16)) (hT (w / 16 ^ 6 % 16))
    (hT (w / 16 ^ 7 % 16))
  norm_num at h ⊢
  exact h

theorem apply_sbox_eq (w : Nat) :
    apply_sbox w = SBOX.getD (w % 16) 0 + 16 * SBOX.getD (w / 16 % 16) 0
      + 256 * SBOX.getD (w / 256 % 16) 0
      + 4096 * SBOX.getD (w / 4096 % 16) 0 + 65536 * SBOX.getD (w / 65536 % 16) 0
      + 1048576 * SBOX.getD (w / 1048576 % 16) 0 + 16777216 * SBOX.getD (w / 16777216 % 16) 0
      + 268435456 * SBOX.getD (w / 268435456 % 16) 0 :=
  subst_loop_eq SBOX SBOX_getD_lt w

theorem inv_sbox_loop_eq (w : Nat) :
    inv_sbox_loop w = INV_SBOX.getD (w % 16) 0 + 16 * INV_SBOX.getD (w / 16 % 16) 0
      + 256 * INV_SBOX.getD (w / 256 % 16) 0
      + 4096 * INV_SBOX.getD (w / 4096 % 16) 0 + 65536 * INV_SBOX.getD (w / 65536 % 16) 0
      + 1048576 * INV_SBOX.getD (w / 1048576 % 16) 0
      + 16777216 * INV_SBOX.getD (w / 16777216 % 16) 0
      + 268435456 * INV_SBOX.getD (w / 268435456 % 16) 0 :=
  subst_loop_eq INV_SBOX INV_SBOX_getD_lt w

theorem apply_sbox_lt (w : Nat) : apply_sbox w < 2 ^ 32 := by
  rw [apply_sbox_eq]
  have h0 := SBOX_getD_lt (w % 16)
  have h1 := SBOX_getD_lt (w / 16 % 16)
  have h2 := SBOX_getD_lt (w / 256 % 16)
  have h3 := SBOX_getD_lt (w / 4096 % 16)
  have h4 := SBOX_getD_lt (w / 65536 % 16)
  have h5 := SBOX_getD_lt (w / 1048576 % 16)
  have h6 := SBOX_getD_lt (w / 16777216 % 16)
  have h7 := SBOX_getD_lt (w / 268435456 % 16)
  omega

theorem inv_sbox_loop_lt (w : Nat) : inv_sbox_loop w < 2 ^ 32 := by
  rw [inv_sbox_loop_eq]
  have h0 := INV_SBOX_getD_lt (w % 16)
  have h1 := INV_SBOX_getD_lt (w / 16 % 16)
  have h2 := INV_SBOX_getD_lt (w / 256 % 16)
  have h3 := INV_SBOX_getD_lt (w / 4096 % 16)
  have h4 := INV_SBOX_getD_lt (w / 65536 % 16)
  have h5 := INV_SBOX_getD_lt (w / 1048576 % 16)
  have h6 := INV_SBOX_getD_lt (w / 16777216 % 16)
  have h7 := INV_SBOX_getD_lt (w / 268435456 % 16)
  omega

/-- Nibble `i` of a packed word of nibbles. -/
theorem pack_nibble {s0 s1 s2 s3 s4 s5 s6 s7 : Nat} (h0 : s0 < 16) (h1 : s1 < 16) (h2 : s2 < 16)
    (h3 : s3 < 16) (h4 : s4 < 16) (h5 : s5 < 16) (h6 : s6 < 16) (h7 : s7 < 16) :
    let p := s0 + 16 * s1 + 256 * s2 + 4096 * s3 + 65536 * s4 + 1048576 * s5 + 16777216 * s6
      + 268435456 * s7
    p % 16 = s0 ∧ p / 16 % 16 = s1 ∧ p / 256 % 16 = s2 ∧ p / 4096 % 16 = s3 ∧
    p / 65536 % 16 = s4 ∧ p / 1048576 % 16 = s5 ∧ p / 16777216 % 16 = s6 ∧
    p / 268435456 % 16 = s7 := by
  intro p
  refine ⟨?_, ?_, ?_, ?_, ?_, ?_, ?_, ?_⟩ <;> omega

theorem inv_sbox_loop_apply_sbox (w : Nat) (hw : w < 2 ^ 32) :
    inv_sbox_loop (apply_sbox w) = w := by
  rw [inv_sbox_loop_eq, apply_sbox_eq]
  obtain ⟨p0, p1, p2, p3, p4, p5, p6, p7⟩ := pack_nibble (SBOX_getD_lt (w % 16))
    (SBOX_getD_lt (w / 16 % 16)) (SBOX_getD_lt (w / 256 % 16)) (SBOX_getD_lt (w / 4096 % 16))
    (SBOX_getD_lt (w / 65536 % 16)) (SBOX_getD_lt (w / 1048576 % 16))
    (SBOX_getD_lt (w / 16777216 % 16)) (SBOX_getD_lt (w / 268435456 % 16))
  rw [p0, p1, p2, p3, p4, p5, p6, p7]
  rw [INV_SBOX_SBOX _ (Nat.mod_lt _ (by decide)), INV_SBOX_SBOX _ (Nat.mod_lt _ (by decide)),
    INV_SBOX_SBOX _ (Nat.mod_lt _ (by decide)), INV_SBOX_SBOX _ (Nat.mod_lt _ (by decide)),
    INV_SBOX_SBOX _ (Nat.mod_lt _ (by decide)), INV_SBOX_SBOX _ (Nat.mod_lt _ (by decide)),
    INV_SBOX_SBOX _ (Nat.mod_lt _ (by decide)), INV_SBOX_SBOX _ (Nat.mod_lt _ (by decide))]
  omega

theorem apply_sbox_inv_sbox_loop (w : Nat) (hw : w < 2 ^ 32) :
    apply_sbox (inv_sbox_loop w) = w := by
  rw [inv_sbox_loop_eq, apply_sbox_eq]
  obtain ⟨p0, p1, p2, p3, p4, p5, p6, p7⟩ := pack_nibble (INV_SBOX_getD_lt (w % 16))
    (INV_SBOX_getD_lt (w / 16 % 16)) (INV_SBOX_getD_lt (w / 256 % 16))
    (INV_SBOX_getD_lt (w / 4096 % 16))
    (INV_SBOX_getD_lt (w / 65536 % 16)) (INV_SBOX_getD_lt (w / 1048576 % 16))
    (INV_SBOX_getD_lt (w / 16777216 % 16)) (INV_SBOX_getD_lt (w / 268435456 % 16))
  rw [p0, p1, p2, p3, p4, p5, p6, p7]
  rw [SBOX_INV_SBOX _ (Nat.mod_lt _ (by decide)), SBOX_INV_SBOX _ (Nat.mod_lt _ (by decide)),
    SBOX_INV_SBOX _ (Nat.mod_lt _ (by decide)), SBOX_INV_SBOX _ (Nat.mod_lt _ (by decide)),
    SBOX_INV_SBOX _ (Nat.mod_lt _ (by decide)), SBOX_INV_SBOX _ (Nat.mod_lt _ (by decide)),
    SBOX_INV_SBOX _ (Nat.mod_lt _ (by decide)), SBOX_INV_SBOX _ (Nat.mod_lt _ (by decide))]
  omega

/-! ## The key schedule in arithmetic form -/

theorem testBit_eq_false_of_lt {x n j : Nat} (hx : x < 2 ^ n) (hj : n ≤ j) :
    x.testBit j = false :=
  Nat.testBit_lt_two_pow (Nat.lt_of_lt_of_le hx (Nat.pow_le_pow_right (by decide) hj))

/-- Clearing the field at bits [7:4] of a 128-bit value: `x & ~(0xF << 4)`. -/
theorem and_clear_nibble {x : Nat} (hx : x < 2 ^ 128) :
    x &&& not128 (u128 (0xF <<< 4)) = 2 ^ 8 * (x / 2 ^ 8) + x % 2 ^ 4 := by
  have hm : not128 (u128 (0xF <<< 4)) = 2 ^ 8 * (2 ^ 120 - 1) + (2 ^ 4 - 1) := by decide
  rw [hm]
  apply Nat.eq_of_testBit_eq
  intro j
  rw [Nat.testBit_and, Nat.testBit_mul_pow_two_add _ (by decide : 2 ^ 4 - 1 < 2 ^ 8),
    Nat.testBit_mul_pow_two_add _
      (Nat.lt_of_lt_of_le (Nat.mod_lt x (Nat.two_pow_pos 4)) (by decide : 2 ^ 4 ≤ 2 ^ 8))]
  by_cases h8 : j < 8
  · simp only [h8, if_true, Nat.testBit_two_pow_sub_one, Nat.testBit_mod_two_pow]
    rw [Bool.and_comm]
  · have e : 8 + (j - 8) = j := by omega
    simp only [h8, if_false, Nat.testBit_two_pow_sub_one, ← Nat.shiftRight_eq_div_pow,
      Nat.testBit_shiftRight, e]
    by_cases h128 : j < 128
    · have : j - 8 < 120 := by omega
      simp [this]
    · simp [testBit_eq_false_of_lt hx (by omega : 128 ≤ j)]


/-- The round-constant operand `(__uint128_t)(rc & 0x1F) << 59`. -/
theorem rc_operand (rc : Nat) : u128 ((rc &&& 0x1F) <<< 59) = rc % 32 * 2 ^ 59 := by
  have h : rc &&& 0x1F = rc % 32 := Nat.and_pow_two_sub_one_eq_mod rc 5
  rw [h]; unfold u128; rw [Nat.shiftLeft_eq]
  apply Nat.mod_eq_of_lt
  have := Nat.mod_lt rc (by decide : 0 < 32)
  omega

theorem rc_operand_lt (rc : Nat) : rc % 32 * 2 ^ 59 < 2 ^ 64 := by
  have := Nat.mod_lt rc (by decide : 0 < 32)
  omega

/-- Lines 68-70 (and 85-87): the field at bits [7:4] is replaced by its image
under the table. -/
theorem sub_nibble_eq (T : List Nat) (hT : ∀ i, T.getD i 0 < 16) {x : Nat} (hx : x < 2 ^ 128) :
    (x &&& not128 (u128 (0xF <<< 4))) ||| u128 (T.getD (u8 ((x >>> 4) &&& 0xF)) 0 <<< 4)
      = 2 ^ 8 * (x / 2 ^ 8) + (x % 2 ^ 4 + 2 ^ 4 * T.getD (x / 16 % 16) 0) := by
  have hn : u8 ((x >>> 4) &&& 0xF) = x / 16 % 16 := by
    rw [and_15, Nat.shiftRight_eq_div_pow]; unfold u8; omega
  rw [hn, and_clear_nibble hx]
  have hs := hT (x / 16 % 16)
  have hu : u128 (T.getD (x / 16 % 16) 0 <<< 4) = 2 ^ 4 * T.getD (x / 16 % 16) 0 := by
    unfold u128; rw [Nat.shiftLeft_eq]; omega
  rw [hu]
  have hr : x % 2 ^ 4 < 2 ^ 4 := Nat.mod_lt _ (by decide)
  have hr8 : x % 2 ^ 4 < 2 ^ 8 := by omega
  rw [← or_eq_add_of_lt hr8, Nat.lor_assoc, or_eq_add_of_lt' hr]
  exact or_eq_add_of_lt (by omega)

theorem sub_nibble_lt (T : List Nat) (hT : ∀ i, T.getD i 0 < 16) {x : Nat} (hx : x < 2 ^ 128) :
    2 ^ 8 * (x / 2 ^ 8) + (x % 2 ^ 4 + 2 ^ 4 * T.getD (x / 16 % 16) 0) < 2 ^ 128 := by
  have hs := hT (x / 16 % 16)
  omega

theorem key_update_eq {k : Nat} (hk : k < 2 ^ 128) (rc : Nat) :
    key_update k rc
      = (2 ^ 8 * (rol128 k 13 / 2 ^ 8)
          + (rol128 k 13 % 2 ^ 4 + 2 ^ 4 * SBOX.getD (rol128 k 13 / 16 % 16) 0))
        ^^^ (rc % 32 * 2 ^ 59) := by
  unfold key_update
  simp only []
  rw [sub_nibble_eq SBOX SBOX_getD_lt (rol128_lt (by decide) hk), rc_operand]

theorem key_update_lt {k : Nat} (hk : k < 2 ^ 128) (rc : Nat) : key_update k rc < 2 ^ 128 := by
  rw [key_update_eq hk]
  apply Nat.xor_lt_two_pow (sub_nibble_lt SBOX SBOX_getD_lt (rol128_lt (by decide) hk))
  have := rc_operand_lt rc
  omega

theorem key_update_inverse_eq {k : Nat} (hk : k < 2 ^ 128) (rc : Nat) :
    key_update_inverse k rc
      = ror128 (2 ^ 8 * ((k ^^^ (rc % 32 * 2 ^ 59)) / 2 ^ 8)
          + ((k ^^^ (rc % 32 * 2 ^ 59)) % 2 ^ 4
            + 2 ^ 4 * INV_SBOX.getD ((k ^^^ (rc % 32 * 2 ^ 59)) / 16 % 16) 0)) 13 := by
  unfold key_update_inverse
  simp only []
  rw [rc_operand]
  have hx : k ^^^ (rc % 32 * 2 ^ 59) < 2 ^ 128 := by
    apply Nat.xor_lt_two_pow hk
    have := rc_operand_lt rc
    omega
  rw [sub_nibble_eq INV_SBOX INV_SBOX_getD_lt hx]

/-- Substituting the field at bits [7:4] through one table and then through
a table that inverts it gives the value back. -/
theorem sub_nibble_cancel (T U : List Nat) (hT : ∀ i, T.getD i 0 < 16)
    (hTU : ∀ x, x < 16 → U.getD (T.getD x 0) 0 = x) (r : Nat) :
    2 ^ 8 * ((2 ^ 8 * (r / 2 ^ 8) + (r % 2 ^ 4 + 2 ^ 4 * T.getD (r / 16 % 16) 0)) / 2 ^ 8)
      + ((2 ^ 8 * (r / 2 ^ 8) + (r % 2 ^ 4 + 2 ^ 4 * T.getD (r / 16 % 16) 0)) % 2 ^ 4
        + 2 ^ 4 * U.getD
            ((2 ^ 8 * (r / 2 ^ 8) + (r % 2 ^ 4 + 2 ^ 4 * T.getD (r / 16 % 16) 0)) / 16 % 16) 0)
      = r := by
  have hs := hT (r / 16 % 16)
  have hi := hTU (r / 16 % 16) (Nat.mod_lt _ (by decide))
  have e1 : (2 ^ 8 * (r / 2 ^ 8) + (r % 2 ^ 4 + 2 ^ 4 * T.getD (r / 16 % 16) 0)) / 16 % 16
      = T.getD (r / 16 % 16) 0 := by omega
  rw [e1, hi]
  omega

theorem key_update_inverse_key_update {k : Nat} (hk : k < 2 ^ 128) (rc : Nat) :
    key_update_inverse (key_update k rc) rc = k := by
  rw [key_update_inverse_eq (key_update_lt hk rc), key_update_eq hk, Nat.xor_cancel_right,
    sub_nibble_cancel SBOX INV_SBOX SBOX_getD_lt INV_SBOX_SBOX]
  exact ror128_rol128 (by decide) hk

theorem key_update_inverse_lt {k : Nat} (hk : k < 2 ^ 128) (rc : Nat) :
    key_update_inverse k rc < 2 ^ 128 := by
  rw [key_update_inverse_eq hk]
  apply ror128_lt (by decide)
  apply sub_nibble_lt INV_SBOX INV_SBOX_getD_lt
  apply Nat.xor_lt_two_pow hk
  have := rc_operand_lt rc
  omega

theorem key_update_key_update_inverse {k : Nat} (hk : k < 2 ^ 128) (rc : Nat) :
    key_update (key_update_inverse k rc) rc = k := by
  have hx : k ^^^ (rc % 32 * 2 ^ 59) < 2 ^ 128 := by
    apply Nat.xor_lt_two_pow hk
    have := rc_operand_lt rc
    omega
  rw [key_update_eq (key_update_inverse_lt hk rc), key_update_inverse_eq hk,
    rol128_ror128 (by decide) (sub_nibble_lt INV_SBOX INV_SBOX_getD_lt hx),
    sub_nibble_cancel INV_SBOX SBOX INV_SBOX_getD_lt SBOX_INV_SBOX]
  exact Nat.xor_cancel_right _ _


/-! ## One round and its inverse -/

theorem u32_lt (x : Nat) : u32 x < 2 ^ 32 := Nat.mod_lt _ (by decide)

theorem enc_round_lt (key : Nat) {L R : Nat} (hR : R < 2 ^ 32) :
    (enc_round key L R).1 < 2 ^ 32 ∧ (enc_round key L R).2 < 2 ^ 32 := by
  unfold enc_round
  simp only []
  have hx : apply_sbox L ^^^ R ^^^ u32 (key &&& 0xFFFFFFFF) < 2 ^ 32 :=
    Nat.xor_lt_two_pow (Nat.xor_lt_two_pow (apply_sbox_lt L) hR) (u32_lt _)
  have hl := rol32_lt (by decide : 3 ≤ 32) hx
  refine ⟨hl, ror32_lt (by decide) ?_⟩
  exact Nat.xor_lt_two_pow (Nat.xor_lt_two_pow (apply_sbox_lt L) hl) (u32_lt _)

theorem dec_round_lt (rk : Nat) {L R : Nat} (hL : L < 2 ^ 32) (hR : R < 2 ^ 32) :
    (dec_round rk L R).1 < 2 ^ 32 ∧ (dec_round rk L R).2 < 2 ^ 32 := by
  unfold dec_round
  simp only []
  have hx : rol32 R 7 ^^^ u32 ((rk >>> 32) &&& 0xFFFFFFFF) ^^^ L < 2 ^ 32 :=
    Nat.xor_lt_two_pow (Nat.xor_lt_two_pow (rol32_lt (by decide) hR) (u32_lt _)) hL
  exact ⟨inv_sbox_loop_lt _,
    Nat.xor_lt_two_pow (Nat.xor_lt_two_pow (ror32_lt (by decide) hL) hx) (u32_lt _)⟩

theorem xor3_cancel (a b c : Nat) : a ^^^ b ^^^ c ^^^ a ^^^ c = b := by
  have h1 : a ^^^ b ^^^ c ^^^ a = b ^^^ c := by
    rw [Nat.xor_assoc a b c, Nat.xor_comm a (b ^^^ c), Nat.xor_cancel_right]
  rw [h1, Nat.xor_cancel_right]

/-- The body of the decryption loop undoes the body of the encryption loop. -/
theorem dec_round_enc_round (key : Nat) {L R : Nat} (hL : L < 2 ^ 32) (hR : R < 2 ^ 32) :
    dec_round key (enc_round key L R).1 (enc_round key L R).2 = (L, R) := by
  unfold enc_round dec_round
  simp only []
  have hx : apply_sbox L ^^^ R ^^^ u32 (key &&& 0xFFFFFFFF) < 2 ^ 32 :=
    Nat.xor_lt_two_pow (Nat.xor_lt_two_pow (apply_sbox_lt L) hR) (u32_lt _)
  have hl := rol32_lt (by decide : 3 ≤ 32) hx
  have hy : apply_sbox L ^^^ rol32 (apply_sbox L ^^^ R ^^^ u32 (key &&& 0xFFFFFFFF)) 3
      ^^^ u32 ((key >>> 32) &&& 0xFFFFFFFF) < 2 ^ 32 :=
    Nat.xor_lt_two_pow (Nat.xor_lt_two_pow (apply_sbox_lt L) hl) (u32_lt _)
  rw [rol32_ror32 (by decide) hy, Nat.xor_cancel_right, Nat.xor_cancel_right,
    ror32_rol32 (by decide) hx, inv_sbox_loop_apply_sbox L hL, xor3_cancel]

/-- The body of the encryption loop undoes the body of the decryption loop. -/
theorem enc_round_dec_round (key : Nat) {L R : Nat} (hL : L < 2 ^ 32) (hR : R < 2 ^ 32) :
    enc_round key (dec_round key L R).1 (dec_round key L R).2 = (L, R) := by
  unfold enc_round dec_round
  simp only []
  have hx : rol32 R 7 ^^^ u32 ((key >>> 32) &&& 0xFFFFFFFF) ^^^ L < 2 ^ 32 :=
    Nat.xor_lt_two_pow (Nat.xor_lt_two_pow (rol32_lt (by decide) hR) (u32_lt _)) hL
  rw [apply_sbox_inv_sbox_loop _ hx]
  have e1 : ∀ a b c : Nat, a ^^^ (b ^^^ a ^^^ c) ^^^ c = b := by
    intro a b c
    rw [Nat.xor_comm b a, Nat.xor_assoc a b c, Nat.xor_cancel_left, Nat.xor_cancel_right]
  rw [e1, rol32_ror32 (by decide) hL, Nat.xor_cancel_right]
  rw [Nat.xor_cancel_right, ror32_rol32 (by decide) hR]

/-! ## The drivers -/

theorem foldl_range_succ {α : Type} (f : α → Nat → α) (a : α) (n : Nat) :
    (List.range (n + 1)).foldl f a = f ((List.range n).foldl f a) n := by
  rw [List.range_succ, List.foldl_append]; rfl

theorem foldl_range_reverse_succ {α : Type} (f : α → Nat → α) (a : α) (n : Nat) :
    (List.range (n + 1)).reverse.foldl f a = (List.range n).reverse.foldl f (f a n) := by
  rw [List.range_succ, List.reverse_append]; rfl

/-- The key register of `lici_encrypt` after `n` passes of its loop. -/
theorem enc_fold_key (L R K n : Nat) :
    ((List.range n).foldl enc_body (L, R, K)).2.2 = spec_key K n := by
  induction n with
  | zero => rfl
  | succ n ih => rw [foldl_range_succ]; simp only [enc_body, spec_key, ih]

theorem enc_fold_lt {L R : Nat} (K : Nat) (hL : L < 2 ^ 32) (hR : R < 2 ^ 32) (n : Nat) :
    ((List.range n).foldl enc_body (L, R, K)).1 < 2 ^ 32
      ∧ ((List.range n).foldl enc_body (L, R, K)).2.1 < 2 ^ 32 := by
  induction n with
  | zero => exact ⟨hL, hR⟩
  | succ n ih => rw [foldl_range_succ]; exact enc_round_lt _ ih.2

/-- The state of the first loop of `lici_decrypt` after `n` passes: the
slots below `n` hold the successive key registers. -/
theorem dec_key_fold (K n : Nat) (hn : n ≤ 31) :
    ((List.range n).foldl dec_key_body (List.replicate 31 0, K)).2 = spec_key K n
      ∧ ((List.range n).foldl dec_key_body (List.replicate 31 0, K)).1.length = 31
      ∧ ∀ i, i < n →
          ((List.range n).foldl dec_key_body (List.replicate 31 0, K)).1.getD i 0
            = spec_key K i := by
  induction n with
  | zero => exact ⟨rfl, by simp, fun i hi => absurd hi (Nat.not_lt_zero i)⟩
  | succ n ih =>
    obtain ⟨h1, h2, h3⟩ := ih (by omega)
    rw [foldl_range_succ]
    refine ⟨?_, ?_, ?_⟩
    · simp only [dec_key_body, spec_key, h1]
    · simp only [dec_key_body, List.length_set, h2]
    · intro i hi
      simp only [dec_key_body]
      by_cases hin : i = n
      · subst hin
        rw [List.getD_eq_getElem _ _ (by rw [List.length_set, h2]; omega), List.getElem_set_self,
          h1]
      · rw [List.getD_eq_getElem _ _ (by rw [List.length_set, h2]; omega),
          List.getElem_set_ne (by omega), ← List.getD_eq_getElem _ 0 (by rw [h2]; omega)]
        exact h3 i (by omega)

theorem dec_round_keys_getD (K i : Nat) (hi : i < 31) :
    (dec_round_keys K).getD i 0 = spec_key K i :=
  (dec_key_fold K 31 (Nat.le_refl 31)).2.2 i hi


/-- Running the last `n` passes of the decryption loop (indices `n-1 .. 0`)
on the state of encryption after `n` rounds gives the plaintext back. -/
theorem dec_fold_enc_fold {L R : Nat} (K : Nat) (hL : L < 2 ^ 32) (hR : R < 2 ^ 32) (n : Nat)
    (hn : n ≤ 31) :
    (List.range n).reverse.foldl (dec_body (dec_round_keys K))
        (((List.range n).foldl enc_body (L, R, K)).1,
          ((List.range n).foldl enc_body (L, R, K)).2.1)
      = (L, R) := by
  induction n with
  | zero => rfl
  | succ n ih =>
    rw [foldl_range_reverse_succ, foldl_range_succ]
    have hk := enc_fold_key L R K n
    have hb := enc_fold_lt K hL hR n
    have e : dec_body (dec_round_keys K)
        ((enc_body ((List.range n).foldl enc_body (L, R, K)) n).1,
          (enc_body ((List.range n).foldl enc_body (L, R, K)) n).2.1) n
        = (((List.range n).foldl enc_body (L, R, K)).1,
            ((List.range n).foldl enc_body (L, R, K)).2.1) := by
      simp only [dec_body, enc_body]
      rw [dec_round_keys_getD K n (by omega), hk]
      exact dec_round_enc_round _ hb.1 hb.2
    rw [e]
    exact ih (by omega)

theorem dec_fold_lt (rks : List Nat) {L R : Nat} (hL : L < 2 ^ 32) (hR : R < 2 ^ 32) (l : List Nat) :
    (l.foldl (dec_body rks) (L, R)).1 < 2 ^ 32 ∧ (l.foldl (dec_body rks) (L, R)).2 < 2 ^ 32 := by
  induction l generalizing L R with
  | nil => exact ⟨hL, hR⟩
  | cons i l ih =>
    rw [List.foldl_cons]
    exact ih (dec_round_lt _ hL hR).1 (dec_round_lt _ hL hR).2

/-- Running `n` rounds of encryption on the result of the last `n` passes
of the decryption loop gives the block back, and the key register after them. -/
theorem enc_fold_dec_fold (K : Nat) (n : Nat) (hn : n ≤ 31) :
    ∀ L R : Nat, L < 2 ^ 32 → R < 2 ^ 32 →
    (List.range n).foldl enc_body
        (((List.range n).reverse.foldl (dec_body (dec_round_keys K)) (L, R)).1,
          ((List.range n).reverse.foldl (dec_body (dec_round_keys K)) (L, R)).2, K)
      = (L, R, spec_key K n) := by
  induction n with
  | zero => intro L R _ _; rfl
  | succ n ih =>
    intro L R hL hR
    rw [foldl_range_reverse_succ, foldl_range_succ]
    have hd := dec_round_lt ((dec_round_keys K).getD n 0) hL hR
    have h := ih (by omega) (dec_body (dec_round_keys K) (L, R) n).1
      (dec_body (dec_round_keys K) (L, R) n).2 hd.1 hd.2
    rw [h]
    simp only [enc_body, dec_body, spec_key]
    rw [dec_round_keys_getD K n (by omega), enc_round_dec_round _ hL hR]


/-! ## Agreement with the reference definitions -/

theorem rol32_eq_spec {x n : Nat} (hn : n ≤ 32) (hx : x < 2 ^ 32) :
    rol32 x n = spec_rotl32 x n := by
  unfold rol32 spec_rotl32 u32
  rw [rotl_arith hn hx]
  have hw : 2 ^ 32 = 2 ^ n * 2 ^ (32 - n) := by rw [← Nat.pow_add]; congr 1; omega
  rw [hw, Nat.mul_comm x, Nat.mul_mod_mul_left]

theorem ror32_eq_spec {x n : Nat} (hn : n ≤ 32) (hx : x < 2 ^ 32) :
    ror32 x n = spec_rotr32 x n := by
  unfold ror32 spec_rotr32 u32
  rw [rotr_arith hn hx, Nat.add_comm, Nat.mul_comm]

theorem rol128_eq_spec {x n : Nat} (hn : n ≤ 128) (hx : x < 2 ^ 128) :
    rol128 x n = spec_rotl128 x n := by
  unfold rol128 spec_rotl128 u128
  rw [rotl_arith hn hx]
  have hw : 2 ^ 128 = 2 ^ n * 2 ^ (128 - n) := by rw [← Nat.pow_add]; congr 1; omega
  rw [hw, Nat.mul_comm x, Nat.mul_mod_mul_left]

theorem key_update_eq_spec {k : Nat} (hk : k < 2 ^ 128) (rc : Nat) :
    key_update k rc = spec_advance_key k rc := by
  rw [key_update_eq hk, rol128_eq_spec (by decide) hk]
  unfold spec_advance_key spec_sub_field
  congr 1
  have hs := SBOX_getD_lt (spec_rotl128 k 13 / 16 % 16)
  have e4 : (2 : Nat) ^ 4 = 16 := rfl
  simp only [e4]
  omega

theorem sub_keys (key : Nat) :
    u32 ((key >>> 32) &&& 0xFFFFFFFF) = key / 2 ^ 32 % 2 ^ 32
      ∧ u32 (key &&& 0xFFFFFFFF) = key % 2 ^ 32 := by
  unfold u32
  rw [and_ffffffff, and_ffffffff, Nat.shiftRight_eq_div_pow, Nat.mod_mod, Nat.mod_mod]
  exact ⟨rfl, rfl⟩

theorem enc_round_eq_spec (key : Nat) {L R : Nat} (hR : R < 2 ^ 32) :
    enc_round key L R = spec_round (key / 2 ^ 32 % 2 ^ 32) (key % 2 ^ 32) (L, R) := by
  unfold enc_round spec_round
  simp only []
  rw [(sub_keys key).1, (sub_keys key).2]
  have hkr : key % 2 ^ 32 < 2 ^ 32 := Nat.mod_lt _ (by decide)
  have hkl : key / 2 ^ 32 % 2 ^ 32 < 2 ^ 32 := Nat.mod_lt _ (by decide)
  have hx : apply_sbox L ^^^ R ^^^ key % 2 ^ 32 < 2 ^ 32 :=
    Nat.xor_lt_two_pow (Nat.xor_lt_two_pow (apply_sbox_lt L) hR) hkr
  rw [rol32_eq_spec (by decide) hx]
  have hl : spec_rotl32 (apply_sbox L ^^^ R ^^^ key % 2 ^ 32) 3 < 2 ^ 32 := by
    rw [← rol32_eq_spec (by decide) hx]; exact rol32_lt (by decide) hx
  rw [ror32_eq_spec (by decide)
    (Nat.xor_lt_two_pow (Nat.xor_lt_two_pow (apply_sbox_lt L) hl) hkl)]

theorem enc_fold_eq_spec {L R : Nat} (K : Nat) (hL : L < 2 ^ 32) (hR : R < 2 ^ 32) (n : Nat) :
    (List.range n).foldl enc_body (L, R, K) = ((spec_state K L R n).1, (spec_state K L R n).2,
      spec_key K n) := by
  induction n with
  | zero => rfl
  | succ n ih =>
    have hb := enc_fold_lt K hL hR n
    rw [foldl_range_succ]
    rw [ih] at hb ⊢
    simp only [enc_body, spec_state, spec_key]
    rw [enc_round_eq_spec _ hb.2]

/-! ## The checked embedding never fails -/

theorem shlC_ok {w x : Nat} {n : Int} (h0 : 0 ≤ n) (h : n < w) :
    shlC w x n = .ok (x <<< n.toNat % 2 ^ w) := by
  unfold shlC; rw [if_pos ⟨h0, h⟩]

theorem shrC_ok {w x : Nat} {n : Int} (h0 : 0 ≤ n) (h : n < w) :
    shrC w x n = .ok (x >>> n.toNat) := by
  unfold shrC; rw [if_pos ⟨h0, h⟩]

theorem readC_ok {t : List Nat} {i : Nat} (h : i < t.length) :
    readC t (i : Int) = .ok (t.getD i 0) := by
  unfold readC
  rw [if_pos (Int.ofNat_nonneg i), Int.toNat_ofNat, List.getElem?_eq_getElem h,
    List.getD_eq_getElem _ _ h]

theorem rol32C_ok (x : Nat) {n : Nat} (h0 : 0 < n) (h : n < 32) :
    rol32C x n = .ok (rol32 x n) := by
  unfold rol32C rol32 u32
  rw [shlC_ok (by omega) (by omega), shrC_ok (by omega) (by omega)]
  have e : ((32 : Int) - (n : Int)).toNat = 32 - n := by omega
  rw [e, Int.toNat_ofNat]
  rfl

theorem ror32C_ok (x : Nat) {n : Nat} (h0 : 0 < n) (h : n < 32) :
    ror32C x n = .ok (ror32 x n) := by
  unfold ror32C ror32 u32
  rw [shrC_ok (by omega) (by omega), shlC_ok (by omega) (by omega)]
  have e : ((32 : Int) - (n : Int)).toNat = 32 - n := by omega
  rw [e, Int.toNat_ofNat]
  rfl

theorem rol128C_ok (x : Nat) {n : Nat} (h0 : 0 < n) (h : n < 128) :
    rol128C x n = .ok (rol128 x n) := by
  unfold rol128C rol128 u128
  rw [shlC_ok (by omega) (by omega), shrC_ok (by omega) (by omega)]
  have e : ((128 : Int) - (n : Int)).toNat = 128 - n := by omega
  rw [e, Int.toNat_ofNat]
  rfl

/-- A counting loop whose body never fails runs to its bound when it has
fuel for the passes that remain. -/
theorem forUpC_ok {σ : Type} (hi : Nat) (bodyC : Int → σ → Except Fault σ) (body : σ → Nat → σ)
    (P : σ → Prop)
    (hbody : ∀ i s, i < hi → P s → bodyC (i : Int) s = .ok (body s i) ∧ P (body s i)) :
    ∀ (d i fuel : Nat) (s : σ), i + d = hi → d ≤ fuel → P s →
      forUpC (hi : Int) bodyC fuel (i : Int) s = .ok ((List.range' i d).foldl body s) := by
  intro d
  induction d with
  | zero =>
    intro i fuel s hid _ _
    have hlt : ¬ ((i : Int) < (hi : Int)) := by omega
    cases fuel with
    | zero => simp only [forUpC, if_neg hlt]; rfl
    | succ f => simp only [forUpC, if_neg hlt]; rfl
  | succ d ih =>
    intro i fuel s hid hf hP
    have hlt : (i : Int) < (hi : Int) := by omega
    cases fuel with
    | zero => omega
    | succ f =>
      obtain ⟨hb, hP'⟩ := hbody i s (by omega) hP
      simp only [forUpC, if_pos hlt, hb]
      have e : (i : Int) + 1 = ((i + 1 : Nat) : Int) := by omega
      rw [e, ih (i + 1) f (body s i) (by omega) (by omega) hP']
      rfl

/-- A counting loop whose body never fails runs out of fuel when it has
less than the passes that remain. -/
theorem forUpC_outOfFuel {σ : Type} (hi : Nat) (bodyC : Int → σ → Except Fault σ)
    (body : σ → Nat → σ) (P : σ → Prop)
    (hbody : ∀ i s, i < hi → P s → bodyC (i : Int) s = .ok (body s i) ∧ P (body s i)) :
    ∀ (fuel d i : Nat) (s : σ), i + d = hi → fuel < d → P s →
      forUpC (hi : Int) bodyC fuel (i : Int) s = .error .outOfFuel := by
  intro fuel
  induction fuel with
  | zero =>
    intro d i s hid hf _
    have hlt : (i : Int) < (hi : Int) := by omega
    simp only [forUpC, if_pos hlt]
  | succ f ih =>
    intro d i s hid hf hP
    have hlt : (i : Int) < (hi : Int) := by omega
    obtain ⟨hb, hP'⟩ := hbody i s (by omega) hP
    simp only [forUpC, if_pos hlt, hb]
    have e : (i : Int) + 1 = ((i + 1 : Nat) : Int) := by omega
    rw [e]
    exact ih (d - 1) (i + 1) (body s i) (by omega) (by omega) hP'

/-- A loop counting down to zero whose body never fails runs to the end
when it has fuel for the passes that remain. -/
theorem forDownC_ok {σ : Type} (bodyC : Int → σ → Except Fault σ) (body : σ → Nat → σ)
    (hi : Nat) (hbody : ∀ i s, i < hi → bodyC (i : Int) s = .ok (body s i)) :
    ∀ (n fuel : Nat) (s : σ), n ≤ hi → n ≤ fuel →
      forDownC bodyC fuel ((n : Int) - 1) s = .ok ((List.range n).reverse.foldl body s) := by
  intro n
  induction n with
  | zero =>
    intro fuel s _ _
    have hlt : ¬ ((0 : Int) ≤ ((0 : Nat) : Int) - 1) := by omega
    cases fuel with
    | zero => simp only [forDownC, if_neg hlt]; rfl
    | succ f => simp only [forDownC, if_neg hlt]; rfl
  | succ n ih =>
    intro fuel s hn hf
    have e : ((n + 1 : Nat) : Int) - 1 = (n : Int) := by omega
    have hle : (0 : Int) ≤ (n : Int) := by omega
    cases fuel with
    | zero => omega
    | succ f =>
      rw [e, foldl_range_reverse_succ]
      simp only [forDownC, if_pos hle, hbody n s (by omega)]
      exact ih f (body s n) (by omega) (by omega)

theorem forDownC_outOfFuel {σ : Type} (bodyC : Int → σ → Except Fault σ) (body : σ → Nat → σ)
    (hi : Nat) (hbody : ∀ i s, i < hi → bodyC (i : Int) s = .ok (body s i)) :
    ∀ (fuel n : Nat) (s : σ), n ≤ hi → fuel < n →
      forDownC bodyC fuel ((n : Int) - 1) s = .error .outOfFuel := by
  intro fuel
  induction fuel with
  | zero =>
    intro n s _ hf
    have hle : (0 : Int) ≤ (n : Int) - 1 := by omega
    simp only [forDownC, if_pos hle]
  | succ f ih =>
    intro n s hn hf
    have hle : (0 : Int) ≤ (n : Int) - 1 := by omega
    have e : (n : Int) - 1 = ((n - 1 : Nat) : Int) := by omega
    simp only [forDownC, if_pos hle]
    rw [e, hbody (n - 1) s (by omega)]
    simp only []
    exact ih (n - 1) (body s (n - 1)) (by omega) (by omega)


theorem subst_bodyC_ok (T : List Nat) (hT : T.length = 16) (w : Nat) (i out : Nat) (hi : i < 8) :
    (do
      let a ← shrC 32 w ((i : Int) * 4)
      let v ← readC T ((a &&& 0xF : Nat) : Int)
      let b ← shlC 32 v ((i : Int) * 4)
      pure (out ||| b) : Except Fault Nat)
      = .ok (out ||| u32 (T.getD ((w >>> (i * 4)) &&& 0xF) 0 <<< (i * 4))) := by
  have e : ((i : Int) * 4).toNat = i * 4 := by omega
  rw [shrC_ok (by omega) (by omega), e]
  have hlt : (w >>> (i * 4)) &&& 0xF < T.length := by
    rw [and_15, hT]; exact Nat.mod_lt _ (by decide)
  simp only [bind, Except.bind]
  rw [readC_ok hlt]
  simp only []
  rw [shlC_ok (by omega) (by omega), e]
  rfl

theorem apply_sboxC_ok (w : Nat) : apply_sboxC w = .ok (apply_sbox w) := by
  unfold apply_sboxC apply_sbox
  rw [List.range_eq_range']
  exact forUpC_ok 8 (apply_sbox_bodyC w) _ (fun _ => True)
    (fun i s hi _ => ⟨subst_bodyC_ok SBOX rfl w i s hi, trivial⟩) 8 0 8 0 rfl (Nat.le_refl 8) trivial

theorem inv_sbox_loopC_ok (w : Nat) : inv_sbox_loopC w = .ok (inv_sbox_loop w) := by
  unfold inv_sbox_loopC inv_sbox_loop
  rw [List.range_eq_range']
  exact forUpC_ok 8 (inv_sbox_bodyC w) _ (fun _ => True)
    (fun i s hi _ => ⟨subst_bodyC_ok INV_SBOX rfl w i s hi, trivial⟩) 8 0 8 0 rfl (Nat.le_refl 8)
    trivial

theorem u8_nibble_lt (a : Nat) : u8 (a &&& 0xF) < 16 := by
  rw [and_15]; unfold u8; omega

theorem key_updateC_ok (key rc : Nat) : key_updateC key rc = .ok (key_update key rc) := by
  unfold key_updateC key_update
  have h13 := rol128C_ok key (by decide : 0 < 13) (by decide : 13 < 128)
  simp only [Nat.cast_ofNat] at h13
  rw [h13]
  simp only [bind, Except.bind]
  rw [shrC_ok (by decide) (by decide)]
  simp only []
  rw [shlC_ok (by decide) (by decide)]
  simp only []
  rw [readC_ok (by show _ < 16; exact u8_nibble_lt _)]
  simp only []
  rw [shlC_ok (by decide) (by decide)]
  simp only []
  rw [shlC_ok (by decide) (by decide)]
  rfl


theorem enc_bodyC_ok (i : Nat) (s : Nat × Nat × Nat) (hi : i < 31) :
    enc_bodyC (i : Int) s = .ok (enc_body s i) := by
  unfold enc_bodyC enc_body enc_round
  rw [shrC_ok (by decide) (by decide)]
  simp only [bind, Except.bind]
  rw [apply_sboxC_ok]
  simp only []
  have h3 := fun x => rol32C_ok x (by decide : 0 < 3) (by decide : 3 < 32)
  have h7 := fun x => ror32C_ok x (by decide : 0 < 7) (by decide : 7 < 32)
  simp only [Nat.cast_ofNat] at h3 h7
  rw [h3]
  simp only []
  rw [h7]
  simp only []
  rw [readC_ok (by show i < 31; exact hi)]
  simp only []
  rw [key_updateC_ok]
  rfl

theorem dec_key_bodyC_ok (i : Nat) (s : List Nat × Nat) (hi : i < 31) (hs : s.1.length = 31) :
    dec_key_bodyC (i : Int) s = .ok (dec_key_body s i) ∧ (dec_key_body s i).1.length = 31 := by
  refine ⟨?_, by simp only [dec_key_body, List.length_set, hs]⟩
  unfold dec_key_bodyC dec_key_body writeC
  rw [if_pos ⟨Int.ofNat_nonneg i, by rw [Int.toNat_ofNat, hs]; exact hi⟩, Int.toNat_ofNat]
  simp only [bind, Except.bind]
  rw [readC_ok (by show i < 31; exact hi)]
  simp only []
  rw [key_updateC_ok]
  rfl

theorem dec_bodyC_ok (rks : List Nat) (hr : rks.length = 31) (i : Nat) (s : Nat × Nat)
    (hi : i < 31) :
    dec_bodyC rks (i : Int) s = .ok (dec_body rks s i) := by
  unfold dec_bodyC dec_body dec_round
  rw [readC_ok (by rw [hr]; exact hi)]
  simp only [bind, Except.bind]
  rw [shrC_ok (by decide) (by decide)]
  simp only []
  have h7 := fun x => rol32C_ok x (by decide : 0 < 7) (by decide : 7 < 32)
  have h3 := fun x => ror32C_ok x (by decide : 0 < 3) (by decide : 3 < 32)
  simp only [Nat.cast_ofNat] at h3 h7
  rw [h7]
  simp only []
  rw [h3]
  simp only []
  rw [inv_sbox_loopC_ok]
  rfl

theorem dec_round_keys_length (key : Nat) : (dec_round_keys key).length = 31 :=
  (dec_key_fold key 31 (Nat.le_refl 31)).2.1

theorem lici_encryptC_ok (L R key k : Nat) :
    lici_encryptC (31 + k) L R key = .ok (lici_encrypt L R key) := by
  unfold lici_encryptC lici_encrypt
  have h := forUpC_ok 31 enc_bodyC enc_body (fun _ => True)
    (fun i s hi _ => ⟨enc_bodyC_ok i s hi, trivial⟩) 31 0 (31 + k) (L, R, key) rfl (by omega)
    trivial
  simp only [Nat.cast_ofNat, Nat.cast_zero, ← List.range_eq_range'] at h
  rw [h]
  rfl

theorem lici_encryptC_outOfFuel (L R key : Nat) (f : Fin 31) :
    lici_encryptC f.val L R key = .error .outOfFuel := by
  unfold lici_encryptC
  have h := forUpC_outOfFuel 31 enc_bodyC enc_body (fun _ => True)
    (fun i s hi _ => ⟨enc_bodyC_ok i s hi, trivial⟩) f.val 31 0 (L, R, key) rfl f.isLt trivial
  simp only [Nat.cast_ofNat, Nat.cast_zero] at h
  rw [h]
  rfl

theorem lici_decryptC_ok (L R key k : Nat) :
    lici_decryptC (31 + k) L R key = .ok (lici_decrypt L R key) := by
  unfold lici_decryptC lici_decrypt
  have h := forUpC_ok 31 dec_key_bodyC dec_key_body (fun s => s.1.length = 31)
    (fun i s hi hs => dec_key_bodyC_ok i s hi hs) 31 0 (31 + k) (List.replicate 31 0, key) rfl
    (by omega) (List.length_replicate 31 0)
  simp only [Nat.cast_ofNat, Nat.cast_zero, ← List.range_eq_range'] at h
  rw [h]
  simp only [bind, Except.bind]
  have h2 := forDownC_ok (dec_bodyC (dec_round_keys key)) (dec_body (dec_round_keys key)) 31
    (fun i s hi => dec_bodyC_ok _ (dec_round_keys_length key) i s hi) 31 (31 + k) (L, R)
    (Nat.le_refl 31) (by omega)
  have e : ((31 : Nat) : Int) - 1 = 30 := by decide
  rw [e] at h2
  exact h2

theorem lici_decryptC_outOfFuel (L R key : Nat) (f : Fin 31) :
    lici_decryptC f.val L R key = .error .outOfFuel := by
  unfold lici_decryptC
  have h := forUpC_outOfFuel 31 dec_key_bodyC dec_key_body (fun s => s.1.length = 31)
    (fun i s hi hs => dec_key_bodyC_ok i s hi hs) f.val 31 0 (List.replicate 31 0, key) rfl
    f.isLt (List.length_replicate 31 0)
  simp only [Nat.cast_ofNat, Nat.cast_zero] at h
  rw [h]
  rfl

/-! ## A flipped bit -/

theorem xor_two_pow_ne (x b : Nat) : x ^^^ 2 ^ b ≠ x := by
  intro h
  have h2 : x ^^^ (x ^^^ 2 ^ b) = 2 ^ b := Nat.xor_cancel_left x (2 ^ b)
  rw [h, Nat.xor_self] at h2
  exact absurd h2.symm (Nat.pos_iff_ne_zero.mp (Nat.two_pow_pos b))

theorem flip_bit_ne (b L R : Nat) : flip_bit b L R ≠ (L, R) := by
  unfold flip_bit
  by_cases h : b < 32
  · rw [if_pos h]
    intro he
    exact xor_two_pow_ne R b (congrArg Prod.snd he)
  · rw [if_neg h]
    intro he
    exact xor_two_pow_ne L (b - 32) (congrArg Prod.fst he)

theorem flip_bit_lt {b L R : Nat} (hL : L < 2 ^ 32) (hR : R < 2 ^ 32) (hb : b < 64) :
    (flip_bit b L R).1 < 2 ^ 32 ∧ (flip_bit b L R).2 < 2 ^ 32 := by
  unfold flip_bit
  by_cases h : b < 32
  · rw [if_pos h]
    exact ⟨hL, Nat.xor_lt_two_pow hR (Nat.pow_lt_pow_right (by decide) h)⟩
  · rw [if_neg h]
    exact ⟨Nat.xor_lt_two_pow hL (Nat.pow_lt_pow_right (by decide) (by omega)), hR⟩

/-- Encryption with a fixed key is injective on blocks. -/
theorem lici_encrypt_injective (K : Nat) {L R L' R' : Nat} (hL : L < 2 ^ 32) (hR : R < 2 ^ 32)
    (hL' : L' < 2 ^ 32) (hR' : R' < 2 ^ 32) (h : lici_encrypt L R K = lici_encrypt L' R' K) :
    (L, R) = (L', R') := by
  have h1 : lici_decrypt (lici_encrypt L R K).1 (lici_encrypt L R K).2 K = (L, R) :=
    dec_fold_enc_fold K hL hR 31 (Nat.le_refl 31)
  have h2 : lici_decrypt (lici_encrypt L' R' K).1 (lici_encrypt L' R' K).2 K = (L', R') :=
    dec_fold_enc_fold K hL' hR' 31 (Nat.le_refl 31)
  rw [← h1, ← h2, h]

/-! ## Bits of the rotations and of the key schedule -/

/-- The sub-keys read from the key register `KL * 2^32 + KR`. -/
theorem sub_keys_of_pair {KL KR : Nat} (hKL : KL < 2 ^ 32) (hKR : KR < 2 ^ 32) :
    u32 (((KL * 2 ^ 32 + KR) >>> 32) &&& 0xFFFFFFFF) = KL
      ∧ u32 ((KL * 2 ^ 32 + KR) &&& 0xFFFFFFFF) = KR := by
  rw [(sub_keys _).1, (sub_keys _).2]
  constructor <;> omega

theorem and_1F_idem (rc : Nat) : (rc &&& 0x1F) &&& 0x1F = rc &&& 0x1F := by
  rw [Nat.and_assoc, Nat.and_self]

theorem key_update_masked_zero (k rc : Nat) (h : rc &&& 0x1F = 0) :
    key_update k rc = key_update k 0 := by
  unfold key_update
  simp only [h, Nat.zero_and]

theorem enc_round_low64 (key L R : Nat) : enc_round key L R = enc_round (key % 2 ^ 64) L R := by
  have h1 := sub_keys key
  have h2 := sub_keys (key % 2 ^ 64)
  have e1 : key % 2 ^ 64 / 2 ^ 32 % 2 ^ 32 = key / 2 ^ 32 % 2 ^ 32 := by omega
  have e2 : key % 2 ^ 64 % 2 ^ 32 = key % 2 ^ 32 := by omega
  unfold enc_round
  simp only [h1.1, h1.2, h2.1, h2.2, e1, e2]

/-- Bit `j` of a rotation to the left by `n` over `w` bits, in arithmetic form. -/
theorem rotl_testBit {w n x : Nat} (hn : n ≤ w) (hx : x < 2 ^ w) (j : Nat) :
    (2 ^ n * (x % 2 ^ (w - n)) + x / 2 ^ (w - n)).testBit j
      = if j < n then x.testBit (w - n + j) else (decide (j - n < w - n) && x.testBit (j - n)) := by
  have h2 : x / 2 ^ (w - n) < 2 ^ n := by
    rw [Nat.div_lt_iff_lt_mul (Nat.two_pow_pos _), ← Nat.pow_add]
    have : n + (w - n) = w := by omega
    rw [this]; exact hx
  rw [Nat.testBit_mul_pow_two_add _ h2 j]
  by_cases hj : j < n
  · rw [if_pos hj, if_pos hj, ← Nat.shiftRight_eq_div_pow, Nat.testBit_shiftRight]
  · rw [if_neg hj, if_neg hj, Nat.testBit_mod_two_pow]

theorem rol32_testBit {x n : Nat} (hn : n ≤ 32) (hx : x < 2 ^ 32) (j : Nat) :
    (rol32 x n).testBit j = (decide (j < 32) && x.testBit ((j + (32 - n)) % 32)) := by
  unfold rol32 u32
  rw [rotl_arith hn hx, rotl_testBit hn hx]
  by_cases hj : j < n
  · have e : (j + (32 - n)) % 32 = 32 - n + j := by omega
    have hlt : j < 32 := by omega
    simp [hj, e, hlt]
  · by_cases h32 : j < 32
    · have e : (j + (32 - n)) % 32 = j - n := by omega
      have hlt : j - n < 32 - n := by omega
      simp [hj, e, hlt, h32]
    · have hlt : ¬ (j - n < 32 - n) := by omega
      simp [hj, hlt, h32]

theorem rol128_testBit {x n : Nat} (hn : n ≤ 128) (hx : x < 2 ^ 128) (j : Nat) :
    (rol128 x n).testBit j = (decide (j < 128) && x.testBit ((j + (128 - n)) % 128)) := by
  unfold rol128 u128
  rw [rotl_arith hn hx, rotl_testBit hn hx]
  by_cases hj : j < n
  · have e : (j + (128 - n)) % 128 = 128 - n + j := by omega
    have hlt : j < 128 := by omega
    simp [hj, e, hlt]
  · by_cases h128 : j < 128
    · have e : (j + (128 - n)) % 128 = j - n := by omega
      have hlt : j - n < 128 - n := by omega
      simp [hj, e, hlt, h128]
    · have hlt : ¬ (j - n < 128 - n) := by omega
      simp [hj, hlt, h128]

/-- The round-constant operand has bits at positions 59 to 63 only. -/
theorem rc_operand_testBit (rc j : Nat) (hj : ¬ (59 ≤ j ∧ j ≤ 63)) :
    (rc % 32 * 2 ^ 59).testBit j = false := by
  rw [Nat.mul_comm, Nat.testBit_mul_pow_two]
  by_cases h : 59 ≤ j
  · have e : (32 : Nat) = 2 ^ 5 := rfl
    have hlt : ¬ (j - 59 < 5) := by omega
    rw [e, Nat.testBit_mod_two_pow]
    simp [hlt]
  · simp [h]

/-- Substituting the field at bits [7:4] leaves the other bits as they are. -/
theorem sub_nibble_testBit (r s j : Nat) (hs : s < 16) (hj : ¬ (4 ≤ j ∧ j ≤ 7)) :
    (2 ^ 8 * (r / 2 ^ 8) + (r % 2 ^ 4 + 2 ^ 4 * s)).testBit j = r.testBit j := by
  have hb : r % 2 ^ 4 + 2 ^ 4 * s < 2 ^ 8 := by omega
  rw [Nat.testBit_mul_pow_two_add _ hb j]
  by_cases h8 : j < 8
  · have h4 : j < 4 := by omega
    rw [if_pos h8, Nat.add_comm,
      Nat.testBit_mul_pow_two_add _ (Nat.mod_lt r (Nat.two_pow_pos 4)) j, if_pos h4,
      Nat.testBit_mod_two_pow]
    simp [h4]
  · have e : 8 + (j - 8) = j := by omega
    rw [if_neg h8, ← Nat.shiftRight_eq_div_pow, Nat.testBit_shiftRight, e]

theorem key_update_testBit {k : Nat} (hk : k < 2 ^ 128) (rc j : Nat) (hj : j < 128)
    (h74 : ¬ (4 ≤ j ∧ j ≤ 7)) (h63 : ¬ (59 ≤ j ∧ j ≤ 63)) :
    (key_update k rc).testBit j = k.testBit ((j + 115) % 128) := by
  rw [key_update_eq hk, Nat.testBit_xor, rc_operand_testBit rc j h63, Bool.xor_false,
    sub_nibble_testBit _ _ j (SBOX_getD_lt _) h74, rol128_testBit (by decide) hk]
  simp [hj]

/-! ## The claims -/

/-- C1: for every 128-bit key `K` and every block `(L, R)` of two 32-bit
words, decrypting with `K` the encryption with `K` of `(L, R)` returns `(L, R)`. -/
theorem C1_decrypt_encrypt (K L R : Nat) (_hK : K < 2 ^ 128) (hL : L < 2 ^ 32) (hR : R < 2 ^ 32) :
    lici_decrypt (lici_encrypt L R K).1 (lici_encrypt L R K).2 K = (L, R) :=
  dec_fold_enc_fold K hL hR 31 (Nat.le_refl 31)

/-- C1, at the key and block of `main`. -/
theorem C1_decrypt_encrypt_witness :
    (0x0123456789ABCDEFFEDCBA9876543210 < 2 ^ 128 ∧ 0x11223344 < 2 ^ 32 ∧ 0x55667788 < 2 ^ 32) ∧
    lici_decrypt (lici_encrypt 0x11223344 0x55667788 0x0123456789ABCDEFFEDCBA9876543210).1
      (lici_encrypt 0x11223344 0x55667788 0x0123456789ABCDEFFEDCBA9876543210).2
      0x0123456789ABCDEFFEDCBA9876543210 = (0x11223344, 0x55667788) :=
  ⟨by decide, C1_decrypt_encrypt 0x0123456789ABCDEFFEDCBA9876543210 0x11223344 0x55667788
    (by decide) (by decide) (by decide)⟩

/-- C2: for every 128-bit key `K` and every block `(L, R)` of two 32-bit
words, encrypting with `K` the decryption with `K` of `(L, R)` returns `(L, R)`. -/
theorem C2_encrypt_decrypt (K L R : Nat) (_hK : K < 2 ^ 128) (hL : L < 2 ^ 32) (hR : R < 2 ^ 32) :
    lici_encrypt (lici_decrypt L R K).1 (lici_decrypt L R K).2 K = (L, R) := by
  unfold lici_encrypt lici_decrypt
  simp only []
  rw [enc_fold_dec_fold K 31 (Nat.le_refl 31) L R hL hR]

/-- C2, at the key and block of `main`. -/
theorem C2_encrypt_decrypt_witness :
    (0x0123456789ABCDEFFEDCBA9876543210 < 2 ^ 128 ∧ 0x11223344 < 2 ^ 32 ∧ 0x55667788 < 2 ^ 32) ∧
    lici_encrypt (lici_decrypt 0x11223344 0x55667788 0x0123456789ABCDEFFEDCBA9876543210).1
      (lici_decrypt 0x11223344 0x55667788 0x0123456789ABCDEFFEDCBA9876543210).2
      0x0123456789ABCDEFFEDCBA9876543210 = (0x11223344, 0x55667788) :=
  ⟨by decide, C2_encrypt_decrypt 0x0123456789ABCDEFFEDCBA9876543210 0x11223344 0x55667788
    (by decide) (by decide) (by decide)⟩

/-- C3: for every 128-bit key `K` and every 8-bit round constant `rc`,
`key_update_inverse` with `rc` applied to `key_update K rc` gives `K` back;
in particular for each of the 31 entries of `ROUND_CONSTANTS`. -/
theorem C3_key_update_inverse_left (K rc : Nat) (hK : K < 2 ^ 128) (_hrc : rc < 2 ^ 8) :
    key_update_inverse (key_update K rc) rc = K
      ∧ ∀ i : Fin 31,
          key_update_inverse (key_update K (ROUND_CONSTANTS.getD i.val 0))
            (ROUND_CONSTANTS.getD i.val 0) = K :=
  ⟨key_update_inverse_key_update hK rc, fun _ => key_update_inverse_key_update hK _⟩

/-- C3, at the key of `main` and the first round constant. -/
theorem C3_key_update_inverse_left_witness :
    (0x0123456789ABCDEFFEDCBA9876543210 < 2 ^ 128 ∧ 0x01 < 2 ^ 8) ∧
    (key_update_inverse (key_update 0x0123456789ABCDEFFEDCBA9876543210 0x01) 0x01
        = 0x0123456789ABCDEFFEDCBA9876543210
      ∧ ∀ i : Fin 31,
          key_update_inverse
            (key_update 0x0123456789ABCDEFFEDCBA9876543210 (ROUND_CONSTANTS.getD i.val 0))
            (ROUND_CONSTANTS.getD i.val 0) = 0x0123456789ABCDEFFEDCBA9876543210) :=
  ⟨by decide, C3_key_update_inverse_left 0x0123456789ABCDEFFEDCBA9876543210 0x01
    (by decide) (by decide)⟩

/-- C4: `SBOX` is a permutation of `0 .. 15` (its 16 entries are the values
`0 .. 15`, each exactly once, all below 16) and `INV_SBOX[SBOX[x]] = x` for
every `x` in `0 .. 15`. -/
theorem C4_sbox_permutation :
    SBOX.length = 16 ∧ SBOX.Perm (List.range 16) ∧ (∀ v : Fin 16, SBOX.count v.val = 1)
      ∧ (∀ x : Fin 16, SBOX.getD x.val 0 < 16)
      ∧ INV_SBOX.length = 16
      ∧ ∀ x : Fin 16, INV_SBOX.getD (SBOX.getD x.val 0) 0 = x.val := by
  refine ⟨by decide, by decide, by decide, by decide, by decide, by decide⟩


/-- C5: for every 32-bit word `w` and every nibble index `i` in `0 .. 7`,
bits `[4i+3:4i]` of `apply_sbox w` are `SBOX` applied to bits `[4i+3:4i]` of
`w`, and `apply_sbox w` has no bit at position 32 or above. -/
theorem C5_apply_sbox_nibbles (w i : Nat) (_hw : w < 2 ^ 32) (hi : i < 8) :
    (apply_sbox w >>> (4 * i)) &&& 0xF = SBOX.getD ((w >>> (4 * i)) &&& 0xF) 0
      ∧ apply_sbox w < 2 ^ 32 := by
  refine ⟨?_, apply_sbox_lt w⟩
  rw [Nat.mul_comm 4 i, nib_shift, nib_shift, apply_sbox_eq]
  obtain ⟨p0, p1, p2, p3, p4, p5, p6, p7⟩ := pack_nibble (SBOX_getD_lt (w % 16))
    (SBOX_getD_lt (w / 16 % 16)) (SBOX_getD_lt (w / 256 % 16)) (SBOX_getD_lt (w / 4096 % 16))
    (SBOX_getD_lt (w / 65536 % 16)) (SBOX_getD_lt (w / 1048576 % 16))
    (SBOX_getD_lt (w / 16777216 % 16)) (SBOX_getD_lt (w / 268435456 % 16))
  interval_cases i
  · simpa using p0
  · simpa using p1
  · simpa using p2
  · simpa using p3
  · simpa using p4
  · simpa using p5
  · simpa using p6
  · simpa using p7

/-- C5, at the left half of the block of `main` and nibble 1. -/
theorem C5_apply_sbox_nibbles_witness :
    (0x11223344 < 2 ^ 32 ∧ 1 < 8) ∧
    ((apply_sbox 0x11223344 >>> (4 * 1)) &&& 0xF = SBOX.getD ((0x11223344 >>> (4 * 1)) &&& 0xF) 0
      ∧ apply_sbox 0x11223344 < 2 ^ 32) :=
  ⟨by decide, C5_apply_sbox_nibbles 0x11223344 1 (by decide) (by decide)⟩

/-- C6: for every 128-bit key `k` and 8-bit `rc`, `key_update k rc` is the
reference value: rotate `k` left by 13 over 128 bits, replace the field at
bits [7:4] of the rotated value by `SBOX` of that field, then XOR with
`(rc mod 32) * 2^59`. -/
theorem C6_key_update_reference (k rc : Nat) (hk : k < 2 ^ 128) (_hrc : rc < 2 ^ 8) :
    key_update k rc = spec_advance_key k rc :=
  key_update_eq_spec hk rc

/-- C6, at the key of `main` and the constant `0x83`. -/
theorem C6_key_update_reference_witness :
    (0x0123456789ABCDEFFEDCBA9876543210 < 2 ^ 128 ∧ 0x83 < 2 ^ 8) ∧
    key_update 0x0123456789ABCDEFFEDCBA9876543210 0x83
      = spec_advance_key 0x0123456789ABCDEFFEDCBA9876543210 0x83 :=
  ⟨by decide, C6_key_update_reference 0x0123456789ABCDEFFEDCBA9876543210 0x83
    (by decide) (by decide)⟩

/-- C7: for every key `K` and block `(L, R)`, `lici_encrypt` is the 31-fold
iteration of the specified round, round `i` using bits [63:32] and [31:0] of
the key register `K_i` before it is advanced, with `K_0 = K` and
`K_{i+1} = key_update K_i ROUND_CONSTANTS[i]`. -/
theorem C7_encrypt_iterates_round (K L R : Nat) (_hK : K < 2 ^ 128) (hL : L < 2 ^ 32)
    (hR : R < 2 ^ 32) :
    lici_encrypt L R K = spec_state K L R 31 := by
  unfold lici_encrypt
  simp only []
  rw [enc_fold_eq_spec K hL hR 31]

/-- C7, at the key and block of `main`. -/
theorem C7_encrypt_iterates_round_witness :
    (0x0123456789ABCDEFFEDCBA9876543210 < 2 ^ 128 ∧ 0x11223344 < 2 ^ 32 ∧ 0x55667788 < 2 ^ 32) ∧
    lici_encrypt 0x11223344 0x55667788 0x0123456789ABCDEFFEDCBA9876543210
      = spec_state 0x0123456789ABCDEFFEDCBA9876543210 0x11223344 0x55667788 31 :=
  ⟨by decide, C7_encrypt_iterates_round 0x0123456789ABCDEFFEDCBA9876543210 0x11223344 0x55667788
    (by decide) (by decide) (by decide)⟩

set_option maxRecDepth 100000 in
/-- C8: for the key and block of `main`, the output of `lici_encrypt` is
`(0x0B0D54B2, 0xBF4A1F3D)`, which is neither the plaintext nor the plaintext
XORed with the sub-key words (bits [63:32] and [31:0]) of the key. -/
theorem C8_encrypt_nontrivial :
    lici_encrypt 0x11223344 0x55667788 0x0123456789ABCDEFFEDCBA9876543210
        = (0x0B0D54B2, 0xBF4A1F3D)
      ∧ lici_encrypt 0x11223344 0x55667788 0x0123456789ABCDEFFEDCBA9876543210
        ≠ (0x11223344, 0x55667788)
      ∧ lici_encrypt 0x11223344 0x55667788 0x0123456789ABCDEFFEDCBA9876543210
        ≠ (0x11223344 ^^^ (0x0123456789ABCDEFFEDCBA9876543210 / 2 ^ 32 % 2 ^ 32),
            0x55667788 ^^^ (0x0123456789ABCDEFFEDCBA9876543210 % 2 ^ 32)) := by
  refine ⟨by decide, by decide, by decide⟩


/-- C9: `lici_encrypt` and `lici_decrypt` are total: in the checked
embedding no table or array access is out of bounds and no shift amount
reaches the width of its operand, for any key and block; with fuel for 31
passes of each outer loop (or more) both drivers return the result of the
unchecked embedding, and with fuel for fewer passes they do not finish. -/
theorem C9_drivers_total (key L R k : Nat) (f : Fin 31) :
    lici_encryptC (31 + k) L R key = .ok (lici_encrypt L R key)
      ∧ lici_decryptC (31 + k) L R key = .ok (lici_decrypt L R key)
      ∧ lici_encryptC f.val L R key = .error .outOfFuel
      ∧ lici_decryptC f.val L R key = .error .outOfFuel :=
  ⟨lici_encryptC_ok L R key k, lici_decryptC_ok L R key k, lici_encryptC_outOfFuel L R key f,
    lici_decryptC_outOfFuel L R key f⟩

/-- C10: for every key `K`, every block `(L, R)` and every bit position
`b` in `0 .. 63`, flipping bit `b` of the plaintext changes the ciphertext:
the two ciphertexts differ, and the XOR of the two is not all-zero. -/
theorem C10_bit_flip_changes_ciphertext (K L R b : Nat) (_hK : K < 2 ^ 128) (hL : L < 2 ^ 32)
    (hR : R < 2 ^ 32) (hb : b < 64) :
    lici_encrypt (flip_bit b L R).1 (flip_bit b L R).2 K ≠ lici_encrypt L R K
      ∧ ((lici_encrypt (flip_bit b L R).1 (flip_bit b L R).2 K).1 ^^^ (lici_encrypt L R K).1,
          (lici_encrypt (flip_bit b L R).1 (flip_bit b L R).2 K).2 ^^^ (lici_encrypt L R K).2)
        ≠ (0, 0) := by
  have hf := flip_bit_lt hL hR hb
  have hne : lici_encrypt (flip_bit b L R).1 (flip_bit b L R).2 K ≠ lici_encrypt L R K := by
    intro h
    exact flip_bit_ne b L R (lici_encrypt_injective K hf.1 hf.2 hL hR h)
  refine ⟨hne, ?_⟩
  intro h
  apply hne
  have h1 := Nat.xor_eq_zero.mp (congrArg Prod.fst h)
  have h2 := Nat.xor_eq_zero.mp (congrArg Prod.snd h)
  exact Prod.ext h1 h2

/-- C10, at the key and block of `main` and bit 0. -/
theorem C10_bit_flip_changes_ciphertext_witness :
    (0x0123456789ABCDEFFEDCBA9876543210 < 2 ^ 128 ∧ 0x11223344 < 2 ^ 32 ∧ 0x55667788 < 2 ^ 32
      ∧ 0 < 64) ∧
    (lici_encrypt (flip_bit 0 0x11223344 0x55667788).1 (flip_bit 0 0x11223344 0x55667788).2
        0x0123456789ABCDEFFEDCBA9876543210
        ≠ lici_encrypt 0x11223344 0x55667788 0x0123456789ABCDEFFEDCBA9876543210
      ∧ ((lici_encrypt (flip_bit 0 0x11223344 0x55667788).1 (flip_bit 0 0x11223344 0x55667788).2
            0x0123456789ABCDEFFEDCBA9876543210).1
            ^^^ (lici_encrypt 0x11223344 0x55667788 0x0123456789ABCDEFFEDCBA9876543210).1,
          (lici_encrypt (flip_bit 0 0x11223344 0x55667788).1 (flip_bit 0 0x11223344 0x55667788).2
            0x0123456789ABCDEFFEDCBA9876543210).2
            ^^^ (lici_encrypt 0x11223344 0x55667788 0x0123456789ABCDEFFEDCBA9876543210).2)
        ≠ (0, 0)) :=
  ⟨by decide, C10_bit_flip_changes_ciphertext 0x0123456789ABCDEFFEDCBA9876543210 0x11223344
    0x55667788 0 (by decide) (by decide) (by decide) (by decide)⟩

/-- C11: for every pair of sub-keys `(KL, KR)` (read from the key register
`KL * 2^32 + KR`) and every state `(L, R)`, the body of the decryption loop
applied to the output of the body of the encryption loop returns `(L, R)`,
and so does the encryption body applied to the output of the decryption
body; both bodies map pairs of 32-bit words to pairs of 32-bit words, so the
round is injective and surjective on them. -/
theorem C11_round_bijective (KL KR L R : Nat) (hKL : KL < 2 ^ 32) (hKR : KR < 2 ^ 32)
    (hL : L < 2 ^ 32) (hR : R < 2 ^ 32) :
    (u32 (((KL * 2 ^ 32 + KR) >>> 32) &&& 0xFFFFFFFF) = KL
        ∧ u32 ((KL * 2 ^ 32 + KR) &&& 0xFFFFFFFF) = KR)
      ∧ dec_round (KL * 2 ^ 32 + KR) (enc_round (KL * 2 ^ 32 + KR) L R).1
          (enc_round (KL * 2 ^ 32 + KR) L R).2 = (L, R)
      ∧ enc_round (KL * 2 ^ 32 + KR) (dec_round (KL * 2 ^ 32 + KR) L R).1
          (dec_round (KL * 2 ^ 32 + KR) L R).2 = (L, R)
      ∧ ((enc_round (KL * 2 ^ 32 + KR) L R).1 < 2 ^ 32
          ∧ (enc_round (KL * 2 ^ 32 + KR) L R).2 < 2 ^ 32)
      ∧ ((dec_round (KL * 2 ^ 32 + KR) L R).1 < 2 ^ 32
          ∧ (dec_round (KL * 2 ^ 32 + KR) L R).2 < 2 ^ 32)
      ∧ (∀ L2 R2 : Nat, L2 < 2 ^ 32 → R2 < 2 ^ 32 →
          enc_round (KL * 2 ^ 32 + KR) L R = enc_round (KL * 2 ^ 32 + KR) L2 R2 →
          (L, R) = (L2, R2))
      ∧ ∃ L0 R0 : Nat, L0 < 2 ^ 32 ∧ R0 < 2 ^ 32
          ∧ enc_round (KL * 2 ^ 32 + KR) L0 R0 = (L, R) := by
  refine ⟨sub_keys_of_pair hKL hKR, dec_round_enc_round _ hL hR, enc_round_dec_round _ hL hR,
    enc_round_lt _ hR, dec_round_lt _ hL hR, ?_, ?_⟩
  · intro L2 R2 hL2 hR2 h
    rw [← dec_round_enc_round (KL * 2 ^ 32 + KR) hL hR,
      ← dec_round_enc_round (KL * 2 ^ 32 + KR) hL2 hR2, h]
  · exact ⟨_, _, (dec_round_lt _ hL hR).1, (dec_round_lt _ hL hR).2,
      enc_round_dec_round _ hL hR⟩

/-- C11, at the low key words and the block of `main`. -/
theorem C11_round_bijective_witness :
    (0xFEDCBA98 < 2 ^ 32 ∧ 0x76543210 < 2 ^ 32 ∧ 0x11223344 < 2 ^ 32 ∧ 0x55667788 < 2 ^ 32) ∧
    dec_round (0xFEDCBA98 * 2 ^ 32 + 0x76543210)
        (enc_round (0xFEDCBA98 * 2 ^ 32 + 0x76543210) 0x11223344 0x55667788).1
        (enc_round (0xFEDCBA98 * 2 ^ 32 + 0x76543210) 0x11223344 0x55667788).2
      = (0x11223344, 0x55667788) :=
  ⟨by decide, (C11_round_bijective 0xFEDCBA98 0x76543210 0x11223344 0x55667788
    (by decide) (by decide) (by decide) (by decide)).2.1⟩

/-- C12: for every key `K` and every `i` in `0 .. 30`, the value stored in
`round_keys[i]` by the first loop of `lici_decrypt` is the key register of
`lici_encrypt` at the start of round `i` (the `i`-fold application of
`key_update` with `ROUND_CONSTANTS[0 .. i-1]` to `K`), so both use the same
sub-keys for round `i`; the array has 31 slots. -/
theorem C12_round_keys_mirror (K L R i : Nat) (_hK : K < 2 ^ 128) (hi : i < 31) :
    (dec_round_keys K).getD i 0 = ((List.range i).foldl enc_body (L, R, K)).2.2
      ∧ (dec_round_keys K).getD i 0 = spec_key K i
      ∧ u32 (((dec_round_keys K).getD i 0 >>> 32) &&& 0xFFFFFFFF)
          = u32 ((((List.range i).foldl enc_body (L, R, K)).2.2 >>> 32) &&& 0xFFFFFFFF)
      ∧ u32 ((dec_round_keys K).getD i 0 &&& 0xFFFFFFFF)
          = u32 (((List.range i).foldl enc_body (L, R, K)).2.2 &&& 0xFFFFFFFF)
      ∧ (dec_round_keys K).length = 31 := by
  have h : (dec_round_keys K).getD i 0 = ((List.range i).foldl enc_body (L, R, K)).2.2 := by
    rw [dec_round_keys_getD K i hi, enc_fold_key]
  exact ⟨h, dec_round_keys_getD K i hi, by rw [h], by rw [h], dec_round_keys_length K⟩

/-- C12, at the key and block of `main` and the last round. -/
theorem C12_round_keys_mirror_witness :
    (0x0123456789ABCDEFFEDCBA9876543210 < 2 ^ 128 ∧ 30 < 31) ∧
    (dec_round_keys 0x0123456789ABCDEFFEDCBA9876543210).getD 30 0
      = ((List.range 30).foldl enc_body
          (0x11223344, 0x55667788, 0x0123456789ABCDEFFEDCBA9876543210)).2.2 :=
  ⟨by decide, (C12_round_keys_mirror 0x0123456789ABCDEFFEDCBA9876543210 0x11223344 0x55667788 30
    (by decide) (by decide)).1⟩

/-- C13: for every 128-bit key `k`, every 8-bit `rc` and every bit position
`j` in `0 .. 127` outside the fields [7:4] and [63:59], bit `j` of
`key_update k rc` is bit `(j - 13) mod 128` of `k`. -/
theorem C13_key_update_frame (k rc j : Nat) (hk : k < 2 ^ 128) (_hrc : rc < 2 ^ 8) (hj : j < 128)
    (h74 : ¬ (4 ≤ j ∧ j ≤ 7)) (h63 : ¬ (59 ≤ j ∧ j ≤ 63)) :
    (key_update k rc).testBit j = k.testBit (((j : Int) - 13) % 128).toNat := by
  have e : (((j : Int) - 13) % 128).toNat = (j + 115) % 128 := by omega
  rw [e]
  exact key_update_testBit hk rc j hj h74 h63

/-- C13, at the key of `main`, the constant `0x1F` and bit 8 (bit 123 of the
key before the update). -/
theorem C13_key_update_frame_witness :
    (0x0123456789ABCDEFFEDCBA9876543210 < 2 ^ 128 ∧ 0x1F < 2 ^ 8 ∧ 8 < 128
      ∧ ¬ (4 ≤ 8 ∧ 8 ≤ 7) ∧ ¬ (59 ≤ 8 ∧ 8 ≤ 63)) ∧
    (key_update 0x0123456789ABCDEFFEDCBA9876543210 0x1F).testBit 8
      = (0x0123456789ABCDEFFEDCBA9876543210 : Nat).testBit ((((8 : Nat) : Int) - 13) % 128).toNat :=
  ⟨by decide, C13_key_update_frame 0x0123456789ABCDEFFEDCBA9876543210 0x1F 8
    (by decide) (by decide) (by decide) (by decide) (by decide)⟩

/-- C14: only the low 5 bits of a round constant reach the key: for every
key `k` and every 8-bit `rc`, `key_update` and `key_update_inverse` give the
same result for `rc` and for `rc & 0x1F`. -/
theorem C14_low_five_bits (k rc : Nat) (_hk : k < 2 ^ 128) (_hrc : rc < 2 ^ 8) :
    key_update k rc = key_update k (rc &&& 0x1F)
      ∧ key_update_inverse k rc = key_update_inverse k (rc &&& 0x1F) := by
  unfold key_update key_update_inverse
  simp only [and_1F_idem]
  exact ⟨trivial, trivial⟩

/-- C14, at the key of `main` and the constant `0x83`. -/
theorem C14_low_five_bits_witness :
    (0x0123456789ABCDEFFEDCBA9876543210 < 2 ^ 128 ∧ 0x83 < 2 ^ 8) ∧
    (key_update 0x0123456789ABCDEFFEDCBA9876543210 0x83
        = key_update 0x0123456789ABCDEFFEDCBA9876543210 (0x83 &&& 0x1F)
      ∧ key_update_inverse 0x0123456789ABCDEFFEDCBA9876543210 0x83
        = key_update_inverse 0x0123456789ABCDEFFEDCBA9876543210 (0x83 &&& 0x1F)) :=
  ⟨by decide, C14_low_five_bits 0x0123456789ABCDEFFEDCBA9876543210 0x83 (by decide) (by decide)⟩

/-- C15: for every 32-bit word `w`, the inverse substitution loop of
`lici_decrypt` (lines 147-151) applied to `apply_sbox w` returns `w`. -/
theorem C15_inverse_substitution (w : Nat) (hw : w < 2 ^ 32) :
    inv_sbox_loop (apply_sbox w) = w :=
  inv_sbox_loop_apply_sbox w hw

/-- C15, at the left half of the block of `main`. -/
theorem C15_inverse_substitution_witness :
    0x11223344 < 2 ^ 32 ∧ inv_sbox_loop (apply_sbox 0x11223344) = 0x11223344 :=
  ⟨by decide, C15_inverse_substitution 0x11223344 (by decide)⟩

/-- C16: `key_update_inverse` is also a right inverse of `key_update`: for
every 128-bit key `K` and every 8-bit `rc`,
`key_update (key_update_inverse K rc) rc = K`; both functions stay within
128 bits, and `key_update` with `rc` fixed is a bijection of the 128-bit keys. -/
theorem C16_key_update_bijective (K rc : Nat) (hK : K < 2 ^ 128) (_hrc : rc < 2 ^ 8) :
    key_update (key_update_inverse K rc) rc = K
      ∧ key_update_inverse K rc < 2 ^ 128
      ∧ key_update K rc < 2 ^ 128
      ∧ Function.Bijective
          (fun k : Fin (2 ^ 128) => (⟨key_update k.val rc, key_update_lt k.isLt rc⟩ :
            Fin (2 ^ 128))) := by
  refine ⟨key_update_key_update_inverse hK rc, key_update_inverse_lt hK rc, key_update_lt hK rc,
    ?_⟩
  rw [Function.bijective_iff_has_inverse]
  refine ⟨fun k => ⟨key_update_inverse k.val rc, key_update_inverse_lt k.isLt rc⟩, ?_, ?_⟩
  · intro k
    exact Fin.ext (key_update_inverse_key_update k.isLt rc)
  · intro k
    exact Fin.ext (key_update_key_update_inverse k.isLt rc)

/-- C16, at the key of `main` and the constant `0x83`. -/
theorem C16_key_update_bijective_witness :
    (0x0123456789ABCDEFFEDCBA9876543210 < 2 ^ 128 ∧ 0x83 < 2 ^ 8) ∧
    key_update (key_update_inverse 0x0123456789ABCDEFFEDCBA9876543210 0x83) 0x83
      = 0x0123456789ABCDEFFEDCBA9876543210 :=
  ⟨by decide, (C16_key_update_bijective 0x0123456789ABCDEFFEDCBA9876543210 0x83
    (by decide) (by decide)).1⟩

/-- C17: `ROUND_CONSTANTS[5]`, `[6]`, `[7]` are `0x20`, `0x40`, `0x80`, their
low 5 bits are zero, so for every key `k` the update of rounds 5, 6 and 7 is
`key_update k 0`, which folds no constant into the key (it is the rotated
key with its field [7:4] substituted); and the masked constants of the 31
rounds are not pairwise distinct. -/
theorem C17_degenerate_constants (k : Nat) :
    (ROUND_CONSTANTS.getD 5 0 = 0x20 ∧ ROUND_CONSTANTS.getD 6 0 = 0x40
        ∧ ROUND_CONSTANTS.getD 7 0 = 0x80)
      ∧ (0x20 &&& 0x1F = 0 ∧ 0x40 &&& 0x1F = 0 ∧ 0x80 &&& 0x1F = 0)
      ∧ (key_update k (ROUND_CONSTANTS.getD 5 0) = key_update k 0
        ∧ key_update k (ROUND_CONSTANTS.getD 6 0) = key_update k 0
        ∧ key_update k (ROUND_CONSTANTS.getD 7 0) = key_update k 0)
      ∧ key_update k 0
          = (rol128 k 13 &&& not128 (u128 (0xF <<< 4)))
            ||| u128 (SBOX.getD (u8 ((rol128 k 13 >>> 4) &&& 0xF)) 0 <<< 4)
      ∧ ¬ (ROUND_CONSTANTS.map (fun rc => rc &&& 0x1F)).Nodup := by
  refine ⟨by decide, by decide,
    ⟨key_update_masked_zero k _ (by decide), key_update_masked_zero k _ (by decide),
      key_update_masked_zero k _ (by decide)⟩, ?_, by decide⟩
  unfold key_update
  have e : u128 ((0 &&& 0x1F) <<< 59) = 0 := by decide
  simp only [e, Nat.xor_zero]

set_option maxRecDepth 100000 in
/-- C18: the upper 64 bits of the key are effective: the key of `main` and
the key with the same bits [63:0] and zero above give different ciphertexts
for the block of `main`, although each round reads its sub-keys from bits
[63:0] of the current key register only. -/
theorem C18_upper_key_bits_effective :
    0x0123456789ABCDEFFEDCBA9876543210 % 2 ^ 64 = 0x0000000000000000FEDCBA9876543210 % 2 ^ 64
      ∧ 0x0123456789ABCDEFFEDCBA9876543210 < 2 ^ 128
      ∧ 0x0000000000000000FEDCBA9876543210 < 2 ^ 128
      ∧ lici_encrypt 0x11223344 0x55667788 0x0123456789ABCDEFFEDCBA9876543210
        = (0x0B0D54B2, 0xBF4A1F3D)
      ∧ lici_encrypt 0x11223344 0x55667788 0x0000000000000000FEDCBA9876543210
        = (0x2CE78673, 0x10577B42)
      ∧ lici_encrypt 0x11223344 0x55667788 0x0123456789ABCDEFFEDCBA9876543210
        ≠ lici_encrypt 0x11223344 0x55667788 0x0000000000000000FEDCBA9876543210
      ∧ ∀ key L R : Nat, enc_round key L R = enc_round (key % 2 ^ 64) L R := by
  refine ⟨by decide, by decide, by decide, by decide, by decide, by decide, enc_round_low64⟩

/-- C19: the rotation helpers are inverse circular rotations of their width:
for every 32-bit `x` and `0 < n < 32`, `rol32 x n` is the circular left
rotation of `x` by `n` (bit `j` of the result is bit `(j - n) mod 32` of `x`,
and nothing at or above bit 32) and `ror32 (rol32 x n) n = x`; likewise for
every 128-bit `y` and `0 < m < 128` with `rol128` and `ror128`. -/
theorem C19_rotations (x n y m : Nat) (hx : x < 2 ^ 32) (_hn0 : 0 < n) (hn : n < 32)
    (hy : y < 2 ^ 128) (_hm0 : 0 < m) (hm : m < 128) :
    (rol32 x n = spec_rotl32 x n
        ∧ (∀ j : Nat, (rol32 x n).testBit j
            = (decide (j < 32) && x.testBit (((j : Int) - (n : Int)) % 32).toNat))
        ∧ ror32 (rol32 x n) n = x)
      ∧ (rol128 y m = spec_rotl128 y m
        ∧ (∀ j : Nat, (rol128 y m).testBit j
            = (decide (j < 128) && y.testBit (((j : Int) - (m : Int)) % 128).toNat))
        ∧ ror128 (rol128 y m) m = y) := by
  refine ⟨⟨rol32_eq_spec (by omega) hx, ?_, ror32_rol32 (by omega) hx⟩,
    ⟨rol128_eq_spec (by omega) hy, ?_, ror128_rol128 (by omega) hy⟩⟩
  · intro j
    have e : (((j : Int) - (n : Int)) % 32).toNat = (j + (32 - n)) % 32 := by omega
    rw [e]
    exact rol32_testBit (by omega) hx j
  · intro j
    have e : (((j : Int) - (m : Int)) % 128).toNat = (j + (128 - m)) % 128 := by omega
    rw [e]
    exact rol128_testBit (by omega) hy j

/-- C19, at the left half of the block of `main` rotated by 3 and the key of
`main` rotated by 13. -/
theorem C19_rotations_witness :
    (0x11223344 < 2 ^ 32 ∧ 0 < 3 ∧ 3 < 32 ∧ 0x0123456789ABCDEFFEDCBA9876543210 < 2 ^ 128
      ∧ 0 < 13 ∧ 13 < 128) ∧
    (ror32 (rol32 0x11223344 3) 3 = 0x11223344
      ∧ ror128 (rol128 0x0123456789ABCDEFFEDCBA9876543210 13) 13
        = 0x0123456789ABCDEFFEDCBA9876543210) :=
  ⟨by decide,
    (C19_rotations 0x11223344 3 0x0123456789ABCDEFFEDCBA9876543210 13 (by decide) (by decide)
      (by decide) (by decide) (by decide) (by decide)).1.2.2,
    (C19_rotations 0x11223344 3 0x0123456789ABCDEFFEDCBA9876543210 13 (by decide) (by decide)
      (by decide) (by decide) (by decide) (by decide)).2.2.2⟩

end LiCi
